import Mathlib

/-!
# Student result management (g1.c): record store and derived fields

A shallow embedding of the record store of `src/g1.c` and proofs of its
specified properties.

Modelling conventions.
* `float` values are IEEE 754 binary32 values (`F32`): finite values, the two
  infinities and NaN, with every addition and division rounded to nearest,
  ties to even. `int` roll numbers are integers, with the 32-bit wrap-around
  made explicit where the code subtracts them.
* The global `SUBJECT_COUNT` is the parameter `n` of every operation.
* A `char[100]` name is the list of the characters before its terminator.
* `student.dat` is `none` when the file does not exist (the read-mode `fopen`
  fails) and `some recs` when it holds the records `recs`, in file order.
  Opening a file for writing, `remove` and `rename` are taken to succeed.
* Terminal input is passed in already scanned: an `Option` is `none` where the
  corresponding `scanf` call does not return 1.
-/

namespace G1

/-! ## Data model -/

/-- Capacity of the name buffer (`#define MAX_NAME_LEN 100`). -/
def MAX_NAME_LEN : Nat := 100

/-- Number of mark slots of a record (`#define MAX_SUBJECTS 10`). -/
def MAX_SUBJECTS : Nat := 10

/-- Page size of the paginated display (`#define RECORDS_PER_PAGE 5`). -/
def RECORDS_PER_PAGE : Nat := 5

/-! ## Binary32 arithmetic -/

/-- A value of type `float` (IEEE 754 binary32). A finite value is an integer
number `k` of units of `2^-149`: every finite binary32 value is such a
multiple, with at most 24 significant bits and magnitude below `2^128`. The
sign of a zero and the payload of a NaN are not modelled; no comparison made
by the program depends on them. -/
inductive F32 where
  | fin (k : Int)
  | inf (neg : Bool)
  | nan
  deriving DecidableEq

/-- The number of bits by which `q` exceeds 24 bits, 0 when `q < 2^24`: the
least `s` with `q / 2^s < 2^24`. The first argument bounds the recursion; the
value `q` itself is always enough. -/
def excess_bits : Nat → Nat → Nat
  | 0, _ => 0
  | fuel + 1, q =>
    if q < 2 ^ 24 then 0
    else if q < 2 ^ 32 then excess_bits fuel (q / 2) + 1
    else if q < 2 ^ 88 then excess_bits fuel (q / 2 ^ 8) + 8
    else excess_bits fuel (q / 2 ^ 64) + 64

/-- Rounding of the non-negative rational `num / den` (in units of `2^-149`)
to the nearest multiple of `2^s` units, where `s` leaves 24 significant bits;
a tie goes to the even significand. -/
def round_units (num den : Nat) : Nat :=
  let s := excess_bits (num / den) (num / den)
  let d := den * 2 ^ s
  let m := num / d
  let r := num % d
  (if d < 2 * r ∨ (d = 2 * r ∧ m % 2 = 1) then m + 1 else m) * 2 ^ s

/-- The binary32 value nearest to `num / den` units with the given sign; a
magnitude that rounds to `2^128` or more is an infinity. -/
def F32.round (neg : Bool) (num den : Nat) : F32 :=
  if 2 ^ 128 * 2 ^ 149 ≤ round_units num den then F32.inf neg
  else F32.fin (if neg then -Int.ofNat (round_units num den) else Int.ofNat (round_units num den))

/-- The finite value `m * 2^e` units, that is `m * 2^(e - 149)`. -/
def F32.dyadic (m : Int) (e : Nat) : F32 := F32.fin (m * Int.ofNat (2 ^ e))

/-- The conversion of an integer to `float`. -/
def F32.ofInt (n : Int) : F32 := F32.round (decide (n < 0)) (n.natAbs * 2 ^ 149) 1

instance (n : Nat) : OfNat F32 n := ⟨F32.ofInt (Int.ofNat n)⟩

/-- The negation of a `float`. -/
def fneg : F32 → F32
  | F32.fin k => F32.fin (-k)
  | F32.inf s => F32.inf (!s)
  | F32.nan => F32.nan

instance : Neg F32 := ⟨fneg⟩

/-- The binary32 sum `a + b`. -/
def fadd : F32 → F32 → F32
  | F32.fin a, F32.fin b => F32.round (decide (a + b < 0)) (a + b).natAbs 1
  | F32.fin _, F32.inf s => F32.inf s
  | F32.inf s, F32.fin _ => F32.inf s
  | F32.inf s, F32.inf t => if s = t then F32.inf s else F32.nan
  | F32.nan, _ => F32.nan
  | _, F32.nan => F32.nan

/-- The binary32 quotient `a / b`; a zero divisor counts as `+0`. -/
def fdiv : F32 → F32 → F32
  | F32.fin a, F32.fin b =>
    if b = 0 then (if a = 0 then F32.nan else F32.inf (decide (a < 0)))
    else F32.round (decide (a < 0) != decide (b < 0)) (a.natAbs * 2 ^ 149) b.natAbs
  | F32.fin _, F32.inf _ => F32.fin 0
  | F32.inf s, F32.fin b => F32.inf (s != decide (b < 0))
  | F32.inf _, F32.inf _ => F32.nan
  | F32.nan, _ => F32.nan
  | _, F32.nan => F32.nan

/-- The comparison `a < b` of two `float`s; false when either is a NaN. -/
def flt : F32 → F32 → Bool
  | F32.fin a, F32.fin b => decide (a < b)
  | F32.fin _, F32.inf s => !s
  | F32.inf s, F32.fin _ => s
  | F32.inf s, F32.inf t => s && !t
  | F32.nan, _ => false
  | _, F32.nan => false

/-- The comparison `a <= b` of two `float`s; false when either is a NaN. -/
def fle : F32 → F32 → Bool
  | F32.fin a, F32.fin b => decide (a ≤ b)
  | F32.fin _, F32.inf s => !s
  | F32.inf s, F32.fin _ => s
  | F32.inf s, F32.inf t => s || !t
  | F32.nan, _ => false
  | _, F32.nan => false

/-- The comparison `a > b`. -/
def fgt (a b : F32) : Bool := flt b a

/-- The comparison `a >= b`. -/
def fge (a b : F32) : Bool := fle b a

/-- The rational number a finite `float` stands for (0 for the others). -/
def F32.val : F32 → ℚ
  | F32.fin k => (k : ℚ) / 2 ^ 149
  | _ => 0

/-- The `Student` struct. -/
structure Student where
  rollNo : Int
  name : List Char
  marks : Fin MAX_SUBJECTS → F32
  total : F32
  percentage : F32
  grade : Char
  deriving DecidableEq

/-- The array read `s->marks[i]`; every index used by the code is below
`MAX_SUBJECTS`, other indices read as 0 here. -/
def Student.mark (s : Student) (i : Nat) : F32 :=
  if h : i < MAX_SUBJECTS then s.marks ⟨i, h⟩ else 0

/-- The array write `s->marks[i] = m`. -/
def Student.setMark (s : Student) (i : Nat) (m : F32) : Student :=
  if h : i < MAX_SUBJECTS then { s with marks := Function.update s.marks ⟨i, h⟩ m } else s

/-- A mark array given by its leading entries, the remaining slots being 0. -/
def marksOf (l : List F32) : Fin MAX_SUBJECTS → F32 := fun i => l.getD i.val 0

/-! ## Derived fields -/

/-- The function `recalc_student` with `SUBJECT_COUNT = n`: the running
binary32 sum of `marks[0..n)` from `0.0f`, the binary32 quotient by `n`
converted to `float`, and the grade cascade. -/
def recalc_student (n : Nat) (s : Student) : Student :=
  let total := (List.range n).foldl (fun t i => fadd t (s.mark i)) 0
  let percentage := fdiv total (F32.ofInt (Int.ofNat n))
  { s with
    total := total
    percentage := percentage
    grade :=
      if fge percentage 90 then 'A'
      else if fge percentage 75 then 'B'
      else if fge percentage 60 then 'C'
      else if fge percentage 40 then 'D'
      else 'F' }

/-! ## Name normalisation -/

/-- The C-locale `isspace`: the space and the control characters 9 to 13. -/
def isspace (c : Char) : Bool :=
  c.toNat = 32 || (9 ≤ c.toNat && c.toNat ≤ 13)

/-- The C-locale `toupper`: the letters a to z move to A to Z. -/
def toupper (c : Char) : Char :=
  if 97 ≤ c.toNat ∧ c.toNat ≤ 122 then Char.ofNat (c.toNat - 32) else c

/-- The C-locale `tolower`: the letters A to Z move to a to z. -/
def tolower (c : Char) : Char :=
  if 65 ≤ c.toNat ∧ c.toNat ≤ 90 then Char.ofNat (c.toNat + 32) else c

/-- The `while (s[i])` loop of `to_titlecase`, carrying the flag `capNext`. -/
def to_titlecase_loop : List Char → Bool → List Char
  | [], _ => []
  | c :: cs, capNext =>
    if isspace c then c :: to_titlecase_loop cs true
    else if capNext then toupper c :: to_titlecase_loop cs false
    else tolower c :: to_titlecase_loop cs false

/-- The function `to_titlecase`: the loop entered with `capNext = 1`. -/
def to_titlecase (s : List Char) : List Char := to_titlecase_loop s true

/-! ## The data file -/

/-- The file `student.dat`: `none` when absent, else its records in order. -/
abbrev DataFile := Option (List Student)

/-- The records a full scan of the file reads; none when the file is absent. -/
def records : DataFile → List Student
  | none => []
  | some recs => recs

/-- The `fread` loop of `roll_exists`. -/
def roll_exists_loop (roll : Int) : List Student → Bool
  | [] => false
  | s :: rest => if s.rollNo = roll then true else roll_exists_loop roll rest

/-- The function `roll_exists`: 0 when the file cannot be opened, else the
result of the scan. -/
def roll_exists (f : DataFile) (roll : Int) : Bool :=
  match f with
  | none => false
  | some recs => roll_exists_loop roll recs

/-! ## Add -/

/-- What `addStudent_feature` reads from the terminal: the result of
`scanf("%d", &s.rollNo)`, the line `safe_fgets` returns for the name, and the
result of the `i`-th `scanf("%f", &s.marks[i])`. -/
structure AddInput where
  roll : Option Int
  name : List Char
  marks : Nat → Option F32

/-- The ways `addStudent_feature` ends: one of its two "Invalid input."
returns, the "Roll number already exists." return, or the write. -/
inductive AddOutcome where
  | invalidInput
  | duplicate
  | added
  deriving DecidableEq, Repr

/-- The marks loop of `addStudent_feature` over the indices still to read:
`none` when a `scanf` fails (the function returns without writing). -/
def add_marks_loop (marks : Nat → Option F32) : List Nat → Student → Option Student
  | [], s => some s
  | i :: rest, s =>
    match marks i with
    | none => none
    | some m => add_marks_loop marks rest (s.setMark i m)

/-- The function `addStudent_feature`. The local `Student s` starts with the
indeterminate contents `s0`; the result is the outcome and the data file
afterwards (`fopen(DATA_FILE, "ab")` creates the file when it is absent). -/
def addStudent_feature (n : Nat) (s0 : Student) (inp : AddInput) (f : DataFile) :
    AddOutcome × DataFile :=
  match inp.roll with
  | none => (AddOutcome.invalidInput, f)
  | some roll =>
    if roll_exists f roll then (AddOutcome.duplicate, f)
    else
      let typed := if inp.name.length = 0 then "Unnamed Student".toList else inp.name
      let s1 := { s0 with rollNo := roll, name := to_titlecase typed }
      match add_marks_loop inp.marks (List.range n) s1 with
      | none => (AddOutcome.invalidInput, f)
      | some s2 => (AddOutcome.added, some (records f ++ [recalc_student n s2]))

/-! ## Update -/

/-- What `update_feature` reads for one matching record: the line
`safe_fgets` returns for the new name (blank keeps the name) and the result of
the `i`-th `scanf("%f", &m)`. -/
structure Mutation where
  newname : List Char
  marks : Nat → Option F32

/-- The ways `update_feature` and `delete_feature` end: the "Invalid input."
return, the "No records found." return (the file cannot be opened), the
rewrite with "Roll number not found.", or the rewrite after a match. -/
inductive ScanOutcome where
  | invalidInput
  | noFile
  | notFound
  | found
  deriving DecidableEq, Repr

/-- The marks loop of `update_feature` over the indices still to read: a failed
`scanf` keeps the old mark, a value `m >= 0` is stored, a negative one is not. -/
def update_marks_loop (marks : Nat → Option F32) : List Nat → Student → Student
  | [], s => s
  | i :: rest, s =>
    match marks i with
    | none => update_marks_loop marks rest s
    | some m => update_marks_loop marks rest (if fge m 0 then s.setMark i m else s)

/-- The body of `if (s.rollNo == r)` in `update_feature`: the name, the marks
loop, then `recalc_student`. The line read holds fewer than `MAX_NAME_LEN`
characters, so `strncpy` copies it whole. -/
def update_record (n : Nat) (mu : Mutation) (s : Student) : Student :=
  let s1 := if mu.newname.length > 0 then { s with name := to_titlecase mu.newname } else s
  recalc_student n (update_marks_loop mu.marks (List.range n) s1)

/-- The `fread` loop of `update_feature` over the records still to read: `k`
counts the matches so far (the `k`-th match reads `inp k`), `found` is the
flag and `temp` the contents of `temp.dat`. -/
def update_loop (n : Nat) (r : Int) (inp : Nat → Mutation) :
    List Student → Nat → Bool → List Student → Bool × List Student
  | [], _, found, temp => (found, temp)
  | s :: rest, k, found, temp =>
    if s.rollNo = r then
      update_loop n r inp rest (k + 1) true (temp ++ [update_record n (inp k) s])
    else
      update_loop n r inp rest k found (temp ++ [s])

/-- The function `update_feature`; `r` is the result of `scanf("%d", &r)`.
After the loop `temp.dat` replaces the data file. -/
def update_feature (n : Nat) (r : Option Int) (inp : Nat → Mutation) (f : DataFile) :
    ScanOutcome × DataFile :=
  match r with
  | none => (ScanOutcome.invalidInput, f)
  | some r =>
    match f with
    | none => (ScanOutcome.noFile, none)
    | some recs =>
      let res := update_loop n r inp recs 0 false []
      (if res.1 then ScanOutcome.found else ScanOutcome.notFound, some res.2)

/-! ## Delete -/

/-- The `fread` loop of `delete_feature` over the records still to read:
`found` is the flag and `temp` the contents of `temp.dat`. -/
def delete_loop (r : Int) : List Student → Bool → List Student → Bool × List Student
  | [], found, temp => (found, temp)
  | s :: rest, found, temp =>
    if s.rollNo = r then delete_loop r rest true temp
    else delete_loop r rest found (temp ++ [s])

/-- The function `delete_feature`; `r` is the result of `scanf("%d", &r)`.
After the loop `temp.dat` replaces the data file. -/
def delete_feature (r : Option Int) (f : DataFile) : ScanOutcome × DataFile :=
  match r with
  | none => (ScanOutcome.invalidInput, f)
  | some r =>
    match f with
    | none => (ScanOutcome.noFile, none)
    | some recs =>
      let res := delete_loop r recs false []
      (if res.1 then ScanOutcome.found else ScanOutcome.notFound, some res.2)

/-! ## Sequences of operations -/

/-- A store operation chosen in the menu of `main`, with what it reads. -/
inductive Op where
  | add (s0 : Student) (inp : AddInput)
  | update (r : Option Int) (inp : Nat → Mutation)
  | delete (r : Option Int)

/-- The data file after one operation. -/
def step (n : Nat) (f : DataFile) : Op → DataFile
  | Op.add s0 inp => (addStudent_feature n s0 inp f).2
  | Op.update r inp => (update_feature n r inp f).2
  | Op.delete r => (delete_feature r f).2

/-- The data file after a sequence of operations, run in order. -/
def run (n : Nat) (f : DataFile) (ops : List Op) : DataFile :=
  ops.foldl (step n) f

/-! ## Sorting -/

/-- The value of a 32-bit `int` result: the mathematical value reduced modulo
`2^32` into the range from `-2^31` to `2^31 - 1`. -/
def wrap32 (x : Int) : Int := (x + 2147483648) % 4294967296 - 2147483648

/-- The comparator `compare_by_roll`: the `int` difference of the rolls. -/
def compare_by_roll (sa sb : Student) : Int := wrap32 (sa.rollNo - sb.rollNo)

/-- The merge step of the library sort: while both runs are non-empty the head
of the first run is taken when `cmp` of the two heads is `<= 0`, else the head
of the second; what is left of either run follows. The first argument bounds
the recursion; the sum of the two lengths is enough. -/
def merge_loop (cmp : Student → Student → Int) : Nat → List Student → List Student → List Student
  | 0, b1, b2 => b1 ++ b2
  | _ + 1, [], b2 => b2
  | _ + 1, b1, [] => b1
  | fuel + 1, x :: b1, y :: b2 =>
    if cmp x y ≤ 0 then x :: merge_loop cmp fuel b1 (y :: b2)
    else y :: merge_loop cmp fuel (x :: b1) b2

/-- The recursive sort behind the library `qsort`: an array of at most one
element is left alone; otherwise the first `n / 2` elements and the remaining
ones are sorted and merged. The first argument bounds the recursion; the
length of the array is enough. -/
def msort (cmp : Student → Student → Int) : Nat → List Student → List Student
  | 0, b => b
  | fuel + 1, b =>
    if b.length ≤ 1 then b
    else
      merge_loop cmp b.length (msort cmp fuel (b.take (b.length / 2)))
        (msort cmp fuel (b.drop (b.length / 2)))

/-- The C library routine `qsort`, which `displayAll_feature` and
`show_topper_and_ranking` call on the snapshot. It is not part of `g1.c`; it
is taken as the GNU C library implements it, a top-down merge sort that calls
the comparator on the heads of the two runs. -/
def qsort (cmp : Student → Student → Int) (arr : List Student) : List Student :=
  msort cmp arr.length arr

/-- The files `student.dat` and `student_backup.dat` as byte sequences, `none`
when the file does not exist. -/
structure Disk where
  data : Option (List Nat)
  backup : Option (List Nat)

/-- The copy loop of `backup_data` and `restore_data`: `fread` takes up to 4096
bytes of what is left of the source, `fwrite` appends them to the destination,
until `fread` returns 0. -/
def copy_loop (src dst : List Nat) : List Nat :=
  if h : 0 < (src.take 4096).length then
    copy_loop (src.drop 4096) (dst ++ src.take 4096)
  else dst
termination_by src.length
decreasing_by
  simp only [List.length_take, List.length_drop] at h ⊢
  omega

/-- The function `backup_data`: returns at once when the data file cannot be
opened; otherwise the backup file is opened with `"wb"` (emptied or created)
and receives the copy. -/
def backup_data (d : Disk) : Disk :=
  match d.data with
  | none => d
  | some src => { d with backup := some (copy_loop src []) }

/-- The function `restore_data`: returns at once when the backup file cannot
be opened; otherwise the data file is opened with `"wb"` (emptied or created)
and receives the copy. -/
def restore_data (d : Disk) : Disk :=
  match d.backup with
  | none => d
  | some src => { d with data := some (copy_loop src []) }

/-! ## Analytics -/

/-- The four variables of the overall scan in `analytics_feature`. -/
structure Extremes where
  highest : F32
  highest_idx : Int
  lowest : F32
  lowest_idx : Int
  deriving DecidableEq

/-- The initial values: `highest = -1.0f`, `lowest = 1e9`, both indices -1. -/
def analytics_init : Extremes := ⟨-1, -1, 1000000000, -1⟩

/-- The two comparisons made on `arr[i]` in the body of the scan. -/
def analytics_body (s : Student) (i : Nat) (e : Extremes) : Extremes :=
  let e1 := if fgt s.percentage e.highest then
      { e with highest := s.percentage, highest_idx := (i : Int) } else e
  if flt s.percentage e1.lowest then
    { e1 with lowest := s.percentage, lowest_idx := (i : Int) } else e1

/-- The `for` loop of `analytics_feature` over the records from index `i` on;
the other accumulators of the loop do not enter these comparisons. -/
def analytics_loop : List Student → Nat → Extremes → Extremes
  | [], _, e => e
  | s :: rest, i, e => analytics_loop rest (i + 1) (analytics_body s i e)

/-- The overall scan of `analytics_feature` on the snapshot `arr`. -/
def analytics_feature (arr : List Student) : Extremes :=
  analytics_loop arr 0 analytics_init

/-! ## Pagination -/

/-- The rows of page `current`: `arr[i]` for `i` from `start = current * 5` up
to `end`, which is `start + 5` lowered to `count`. -/
def page_rows (arr : List Student) (count current : Nat) : List Student :=
  let start := current * RECORDS_PER_PAGE
  let stop := if start + RECORDS_PER_PAGE > count then count else start + RECORDS_PER_PAGE
  (List.range' start (stop - start)).filterMap (fun i => arr[i]?)

/-- The key dispatch of `paginate_and_display`: the next value of `current`,
or `none` when the key leaves the loop. -/
def key_step (pages current : Nat) (ch : Char) : Option Nat :=
  if ch = 'n' ∨ ch = 'N' then some (if current + 1 < pages then current + 1 else current)
  else if ch = 'p' ∨ ch = 'P' then some (if current > 0 then current - 1 else current)
  else none

/-- The `while (1)` loop of `paginate_and_display` as the list of what it
displays: each entry is the value of `current` and the rows printed. `keys`
holds the characters the dispatch receives; at their end the loop is left. -/
def paginate_loop (arr : List Student) (count pages : Nat) :
    List Char → Nat → List (Nat × List Student)
  | [], current => [(current, page_rows arr count current)]
  | ch :: rest, current =>
    (current, page_rows arr count current) ::
      (match key_step pages current ch with
        | none => []
        | some c => paginate_loop arr count pages rest c)

/-- The value of `pages` in `paginate_and_display`. -/
def page_count (count : Nat) : Nat := (count + RECORDS_PER_PAGE - 1) / RECORDS_PER_PAGE

/-- The function `paginate_and_display` on a non-null array: nothing is
displayed when `count == 0`; otherwise the loop starts at page 0. -/
def paginate_and_display (arr : List Student) (count : Nat) (keys : List Char) :
    List (Nat × List Student) :=
  if count = 0 then []
  else paginate_loop arr count (page_count count) keys 0

/-! ## Specification-side predicates -/

/-- The grade the specification assigns to a percentage: A from 90, B from 75,
C from 60, D from 40, F otherwise. -/
def threshold_grade (p : F32) : Char :=
  if fle 90 p then 'A' else if fle 75 p then 'B' else if fle 60 p then 'C'
  else if fle 40 p then 'D' else 'F'

/-- The sum of `marks[0..k)` in binary32, added from the left starting from
zero, each addition rounded. -/
def fsum_first (s : Student) : Nat → F32
  | 0 => 0
  | k + 1 => fadd (fsum_first s k) (s.mark k)

/-- Consistency of the derived fields of a record under subject count `n`, in
the arithmetic of the program: `total` is the binary32 sum of the first `n`
marks, `percentage` is the binary32 quotient `total / n` and `grade` is the
threshold grade of `percentage`. -/
def derived_consistent (n : Nat) (s : Student) : Prop :=
  s.total = fsum_first s n
  ∧ s.percentage = fdiv s.total (F32.ofInt (Int.ofNat n))
  ∧ s.grade = threshold_grade s.percentage

instance (n : Nat) (s : Student) : Decidable (derived_consistent n s) :=
  inferInstanceAs (Decidable (_ ∧ _ ∧ _))

/-- Consistency of the derived fields in exact arithmetic, as the
specification words it: `total` is the sum of the first `n` marks and
`percentage` is `total / n` as rational numbers, and `grade` is the threshold
grade of `percentage`. -/
def derived_exact (n : Nat) (s : Student) : Prop :=
  s.total.val = ∑ i in Finset.range n, (s.mark i).val
  ∧ s.percentage.val = s.total.val / (n : ℚ)
  ∧ s.grade = threshold_grade s.percentage

/-- That `k` units is a binary32 value: rounding leaves it as it is. -/
def F32.exact (k : Int) : Prop := F32.round (decide (k < 0)) k.natAbs 1 = F32.fin k

instance (k : Int) : Decidable (F32.exact k) :=
  inferInstanceAs (Decidable (_ = _))

/-- The lower-case letters paired with their upper-case forms. -/
def letter_pairs : List (Char × Char) :=
  "abcdefghijklmnopqrstuvwxyz".toList.zip "ABCDEFGHIJKLMNOPQRSTUVWXYZ".toList

/-- The uppercase of a character as the specification means it: a lower-case
letter becomes the upper-case letter paired with it, any other character is
itself. -/
def upper_of (c : Char) : Char :=
  match letter_pairs.find? (fun q => decide (q.1 = c)) with
  | some q => q.2
  | none => c

/-- The lowercase of a character as the specification means it: an upper-case
letter becomes the lower-case letter paired with it, any other character is
itself. -/
def lower_of (c : Char) : Char :=
  match letter_pairs.find? (fun q => decide (q.2 = c)) with
  | some q => q.1
  | none => c

/-- The whitespace characters: space, tab, line feed, vertical tab, form feed
and carriage return. -/
def is_blank (c : Char) : Bool := [32, 9, 10, 11, 12, 13].contains c.toNat

/-- The value of the flag `capNext` when the loop of `to_titlecase`, entered
with the flag `cap`, reaches index `i`: the entry value at index 0, afterwards
whether the character before is a space. -/
def cap_before (s : List Char) (cap : Bool) : Nat → Bool
  | 0 => cap
  | j + 1 =>
    match s[j]? with
    | some p => isspace p
    | none => false

/-- The roll numbers of the stored records, in file order. -/
def rolls (f : DataFile) : List Int := (records f).map (fun s => s.rollNo)

/-- A record with marks 100, 100, 0 and stale derived fields. -/
def sample_thirds : Student := ⟨1, "Ann".toList, marksOf [100, 100, 0], 0, 0, 'F'⟩

/-- A record with marks `90 - 2^-17` (the `float` next below 90), 90, 90 and
stale derived fields. -/
def sample_below_90 : Student :=
  ⟨2, "Bob".toList, marksOf [F32.dyadic 11796479 132, 90, 90], 0, 0, 'F'⟩

/-- Known binary32 results: `1 / 3` and `1 / 10` have the significands
`0xAAAAAB` and `0xCCCCCD`, `0.1 + 0.2` has `0x99999A`, `200 / 3` is
`8738133 / 131072`, `2^24 + 1` rounds to the even neighbour `2^24` and
`2^24 + 3` to `2^24 + 4`, the largest finite value plus itself is `+inf`,
`1 / 0` is `+inf` and `0 / 0` is NaN. -/
theorem binary32_samples :
    fdiv 1 3 = F32.dyadic 11184811 124
    ∧ fdiv 1 10 = F32.dyadic 13421773 122
    ∧ fadd (fdiv 1 10) (fdiv 2 10) = F32.dyadic 10066330 124
    ∧ fdiv 200 3 = F32.dyadic 8738133 132
    ∧ (16777217 : F32) = 16777216
    ∧ (16777219 : F32) = 16777220
    ∧ fadd (F32.dyadic 16777215 253) (F32.dyadic 16777215 253) = F32.inf false
    ∧ fdiv 1 0 = F32.inf false
    ∧ fdiv 0 0 = F32.nan := by
  decide

theorem F32.val_fin (k : Int) : (F32.fin k).val = (k : ℚ) / 2 ^ 149 := rfl

theorem round_units_mul (p d : Nat) (hd : 0 < d) : round_units (p * d) d = round_units p 1 := by
  unfold round_units
  simp only [Nat.mul_div_cancel p hd, Nat.div_one, Nat.one_mul]
  have hdiv : p * d / (d * 2 ^ excess_bits p p) = p / 2 ^ excess_bits p p := by
    rw [Nat.mul_comm p d]
    exact Nat.mul_div_mul_left p (2 ^ excess_bits p p) hd
  have hmod : p * d % (d * 2 ^ excess_bits p p) = d * (p % 2 ^ excess_bits p p) := by
    rw [Nat.mul_comm p d]
    exact Nat.mul_mod_mul_left d p (2 ^ excess_bits p p)
  rw [hdiv, hmod]
  have h1 : (d * 2 ^ excess_bits p p < 2 * (d * (p % 2 ^ excess_bits p p)))
      ↔ (2 ^ excess_bits p p < 2 * (p % 2 ^ excess_bits p p)) := by
    rw [show 2 * (d * (p % 2 ^ excess_bits p p)) = d * (2 * (p % 2 ^ excess_bits p p)) by ring]
    exact Nat.mul_lt_mul_left hd
  have h2 : (d * 2 ^ excess_bits p p = 2 * (d * (p % 2 ^ excess_bits p p)))
      ↔ (2 ^ excess_bits p p = 2 * (p % 2 ^ excess_bits p p)) := by
    rw [show 2 * (d * (p % 2 ^ excess_bits p p)) = d * (2 * (p % 2 ^ excess_bits p p)) by ring]
    exact Nat.mul_right_inj (Nat.pos_iff_ne_zero.1 hd)
  simp only [h1, h2]

theorem ofInt_subject_count (n : Nat) (h : n ≤ MAX_SUBJECTS) :
    F32.ofInt (Int.ofNat n) = F32.fin (Int.ofNat (n * 2 ^ 149)) := by
  unfold MAX_SUBJECTS at h
  interval_cases n <;> decide

theorem fadd_exact (a b : Int) (h : F32.exact (a + b)) :
    fadd (F32.fin a) (F32.fin b) = F32.fin (a + b) := h

/-- The quotient of `t` units by a subject count `n` is exact when it is a
binary32 value. -/
theorem fdiv_exact (p : Int) (n : Nat) (h1 : 1 ≤ n) (h10 : n ≤ MAX_SUBJECTS)
    (h : F32.exact p) :
    fdiv (F32.fin (p * Int.ofNat n)) (F32.ofInt (Int.ofNat n)) = F32.fin p := by
  rw [ofInt_subject_count n h10]
  have hpos : (0 : Int) < Int.ofNat (n * 2 ^ 149) := by
    have : 0 < n * 2 ^ 149 := Nat.mul_pos h1 (Nat.two_pow_pos 149)
    exact Int.ofNat_lt.2 this
  have hn0 : Int.ofNat (n * 2 ^ 149) ≠ 0 := ne_of_gt hpos
  have hnpos : (0 : Int) < Int.ofNat n := Int.ofNat_lt.2 h1
  simp only [fdiv, hn0, if_false]
  have hsign : (decide (p * Int.ofNat n < 0) != decide (Int.ofNat (n * 2 ^ 149) < 0))
      = decide (p < 0) := by
    have h2 : ¬ Int.ofNat (n * 2 ^ 149) < 0 := not_lt.2 (le_of_lt hpos)
    have h3 : (p * Int.ofNat n < 0) ↔ p < 0 := by
      constructor
      · intro hlt
        by_contra hp
        exact absurd hlt (not_lt.2 (Int.mul_nonneg (not_lt.1 hp) (le_of_lt hnpos)))
      · intro hlt
        exact Int.mul_neg_of_neg_of_pos hlt hnpos
    rw [decide_eq_false h2, decide_eq_decide.2 h3]
    cases decide (p < 0) <;> rfl
  have hnum : (p * Int.ofNat n).natAbs * 2 ^ 149 = p.natAbs * (Int.ofNat (n * 2 ^ 149)).natAbs := by
    rw [Int.natAbs_mul]
    simp only [Int.ofNat_eq_coe, Int.natAbs_ofNat]
    ring
  rw [hsign, hnum]
  unfold F32.round
  rw [round_units_mul _ _ (by
    rw [Int.ofNat_eq_coe, Int.natAbs_ofNat]; exact Nat.mul_pos h1 (Nat.two_pow_pos 149))]
  exact h

/-! ### The derived fields -/

theorem foldl_fadd_mark (s : Student) (n : Nat) :
    (List.range n).foldl (fun t i => fadd t (s.mark i)) 0 = fsum_first s n := by
  induction n with
  | zero => rfl
  | succ k ih => rw [List.range_succ, List.foldl_append, ih]; rfl

theorem fsum_first_exact (s : Student) (m : Nat → Int) (n : Nat)
    (hm : ∀ i, i < n → s.mark i = F32.fin (m i))
    (hex : ∀ k, k ≤ n → F32.exact (∑ i in Finset.range k, m i)) :
    fsum_first s n = F32.fin (∑ i in Finset.range n, m i) := by
  induction n with
  | zero =>
    rw [Finset.range_zero, Finset.sum_empty]
    show F32.ofInt (Int.ofNat 0) = F32.fin 0
    decide
  | succ k ih =>
    have hk := ih (fun i hi => hm i (Nat.lt_succ_of_lt hi)) (fun j hj => hex j (Nat.le_succ_of_le hj))
    show fadd (fsum_first s k) (s.mark k) = _
    rw [hk, hm k (Nat.lt_succ_self k), Finset.sum_range_succ]
    exact fadd_exact _ _ (by rw [← Finset.sum_range_succ]; exact hex (k + 1) (le_refl _))

theorem recalc_student_grade (n : Nat) (s : Student) :
    (recalc_student n s).grade =
      if fge (recalc_student n s).percentage 90 = true then 'A'
      else if fge (recalc_student n s).percentage 75 = true then 'B'
      else if fge (recalc_student n s).percentage 60 = true then 'C'
      else if fge (recalc_student n s).percentage 40 = true then 'D'
      else 'F' := rfl

theorem flt_not_fge (a b : F32) (h : flt a b = true) : fge a b = false := by
  cases a <;> cases b <;> simp_all [flt, fge, fle]

theorem fle_trans (a b c : F32) (hab : fle a b = true) (hbc : fle b c = true) :
    fle a c = true := by
  cases a <;> cases b <;> cases c <;> simp_all [fle] <;>
    first
    | omega
    | (rename_i x y z; cases x <;> cases y <;> cases z <;> simp_all)

theorem grade_bounds : fle 40 60 = true ∧ fle 60 75 = true ∧ fle 75 90 = true := by decide

theorem recalc_student_congr (n : Nat) (t u : Student) (h : t.marks = u.marks) :
    (recalc_student n t).total = (recalc_student n u).total
    ∧ (recalc_student n t).percentage = (recalc_student n u).percentage
    ∧ (recalc_student n t).grade = (recalc_student n u).grade := by
  have hmark : t.mark = u.mark := by
    funext i
    simp only [Student.mark, h]
  simp [recalc_student, hmark]

/-- C1 (as amended): for a subject count `1 ≤ n ≤ 10`, `recalc_student` sets
`total` to the sum of the first `n` marks computed in binary32 (added from the
left, each addition rounded to nearest) and `percentage` to the binary32
quotient `total / n`; when the marks are finite and every partial sum is a
binary32 value, `total` is the exact sum, and when moreover the exact quotient
is a binary32 value, `percentage` is that quotient. The grade is 'A' when
`percentage >= 90`, 'B' when `75 <= percentage < 90`, 'C' when
`60 <= percentage < 75`, 'D' when `40 <= percentage < 60` and 'F' when
`percentage >= 40` does not hold. Roll, name and marks are unchanged; marks 90,
80, 70 with `n = 3` give total 240, percentage 80 and grade 'B'. -/
theorem recalc_student_spec (n : Nat) (s : Student) (h1 : 1 ≤ n) (h10 : n ≤ MAX_SUBJECTS) :
    (recalc_student n s).total = fsum_first s n
    ∧ (recalc_student n s).percentage
        = fdiv (recalc_student n s).total (F32.ofInt (Int.ofNat n))
    ∧ (∀ m : Nat → Int, (∀ i, i < n → s.mark i = F32.fin (m i)) →
        (∀ k, k ≤ n → F32.exact (∑ i in Finset.range k, m i)) →
        (recalc_student n s).total = F32.fin (∑ i in Finset.range n, m i)
        ∧ (∀ p : Int, p * Int.ofNat n = ∑ i in Finset.range n, m i → F32.exact p →
            (recalc_student n s).percentage = F32.fin p))
    ∧ (fge (recalc_student n s).percentage 90 = true → (recalc_student n s).grade = 'A')
    ∧ (fle 75 (recalc_student n s).percentage = true →
        flt (recalc_student n s).percentage 90 = true → (recalc_student n s).grade = 'B')
    ∧ (fle 60 (recalc_student n s).percentage = true →
        flt (recalc_student n s).percentage 75 = true → (recalc_student n s).grade = 'C')
    ∧ (fle 40 (recalc_student n s).percentage = true →
        flt (recalc_student n s).percentage 60 = true → (recalc_student n s).grade = 'D')
    ∧ (fge (recalc_student n s).percentage 40 = false → (recalc_student n s).grade = 'F')
    ∧ (recalc_student n s).rollNo = s.rollNo
    ∧ (recalc_student n s).name = s.name
    ∧ (recalc_student n s).marks = s.marks
    ∧ (∀ t : Student, t.marks = marksOf [90, 80, 70] →
        (recalc_student 3 t).total = 240 ∧ (recalc_student 3 t).percentage = 80
        ∧ (recalc_student 3 t).grade = 'B') := by
  have htot : (recalc_student n s).total = fsum_first s n := foldl_fadd_mark s n
  have hup : ∀ (p a b : F32), fle a b = true → fge p a = false → fge p b = false := by
    intro p a b hab hpa
    cases hpb : fge p b with
    | false => rfl
    | true =>
      have := fle_trans a b p hab hpb
      rw [fge] at hpa
      rw [this] at hpa
      exact Bool.noConfusion hpa
  refine ⟨htot, rfl, ?_, ?_, ?_, ?_, ?_, ?_, rfl, rfl, rfl, ?_⟩
  · intro m hm hex
    have hsum := fsum_first_exact s m n hm hex
    refine ⟨htot.trans hsum, ?_⟩
    intro p hp hpe
    show fdiv (recalc_student n s).total (F32.ofInt (Int.ofNat n)) = F32.fin p
    rw [htot, hsum, ← hp]
    exact fdiv_exact p n h1 h10 hpe
  · intro h
    rw [recalc_student_grade, if_pos h]
  · intro h75 h90
    have n90 := flt_not_fge _ _ h90
    rw [recalc_student_grade, if_neg (by simp [n90]),
      if_pos (show fge _ 75 = true from h75)]
  · intro h60 h75
    have n75 := flt_not_fge _ _ h75
    have n90 := hup _ _ _ grade_bounds.2.2 n75
    rw [recalc_student_grade, if_neg (by simp [n90]), if_neg (by simp [n75]),
      if_pos (show fge _ 60 = true from h60)]
  · intro h40 h60
    have n60 := flt_not_fge _ _ h60
    have n75 := hup _ _ _ grade_bounds.2.1 n60
    have n90 := hup _ _ _ grade_bounds.2.2 n75
    rw [recalc_student_grade, if_neg (by simp [n90]), if_neg (by simp [n75]),
      if_neg (by simp [n60]), if_pos (show fge _ 40 = true from h40)]
  · intro n40
    have n60 := hup _ _ _ grade_bounds.1 n40
    have n75 := hup _ _ _ grade_bounds.2.1 n60
    have n90 := hup _ _ _ grade_bounds.2.2 n75
    rw [recalc_student_grade, if_neg (by simp [n90]), if_neg (by simp [n75]),
      if_neg (by simp [n60]), if_neg (by simp [n40])]
  · intro t ht
    have hc := recalc_student_congr 3 t ⟨0, [], marksOf [90, 80, 70], 0, 0, 'F'⟩ ht
    rw [hc.1, hc.2.1, hc.2.2]
    decide

/-- Witness for C1 (as amended) at `n = 3` on a record with marks 100, 100, 0:
the total is the binary32 sum of the three marks. -/
theorem recalc_student_spec_witness :
    (recalc_student 3 sample_thirds).total = fsum_first sample_thirds 3 :=
  (recalc_student_spec 3 sample_thirds (by decide) (by decide)).1

/-- C1 (counterexample): with marks 100, 100, 0 and three subjects the total
is 200, the sum of the marks, but the stored percentage is not `200 / 3`; with
marks `90 - 2^-17`, 90, 90 the stored total is not the sum of the marks and the
grade is 'A', although the sum of the marks divided by 3 is below 90. -/
theorem recalc_student_rounds :
    (recalc_student 3 sample_thirds).total.val
        = (sample_thirds.mark 0).val + (sample_thirds.mark 1).val + (sample_thirds.mark 2).val
    ∧ (recalc_student 3 sample_thirds).percentage.val
        ≠ (recalc_student 3 sample_thirds).total.val / 3
    ∧ (recalc_student 3 sample_below_90).total.val
        ≠ (sample_below_90.mark 0).val + (sample_below_90.mark 1).val
          + (sample_below_90.mark 2).val
    ∧ (recalc_student 3 sample_below_90).grade = 'A'
    ∧ ((sample_below_90.mark 0).val + (sample_below_90.mark 1).val
          + (sample_below_90.mark 2).val) / 3 < 90 := by
  have t1 : (recalc_student 3 sample_thirds).total = F32.fin (Int.ofNat (200 * 2 ^ 149)) := by
    decide
  have p1 : (recalc_student 3 sample_thirds).percentage
      = F32.fin (Int.ofNat (8738133 * 2 ^ 132)) := by decide
  have a0 : sample_thirds.mark 0 = F32.fin (Int.ofNat (100 * 2 ^ 149)) := by decide
  have a1 : sample_thirds.mark 1 = F32.fin (Int.ofNat (100 * 2 ^ 149)) := by decide
  have a2 : sample_thirds.mark 2 = F32.fin (Int.ofNat 0) := by decide
  have t2 : (recalc_student 3 sample_below_90).total = F32.fin (Int.ofNat (270 * 2 ^ 149)) := by
    decide
  have b0 : sample_below_90.mark 0 = F32.fin (Int.ofNat (11796479 * 2 ^ 132)) := by decide
  have b1 : sample_below_90.mark 1 = F32.fin (Int.ofNat (90 * 2 ^ 149)) := by decide
  have b2 : sample_below_90.mark 2 = F32.fin (Int.ofNat (90 * 2 ^ 149)) := by decide
  rw [t1, p1, a0, a1, a2, t2, b0, b1, b2]
  simp only [F32.val_fin, Int.ofNat_eq_coe]
  refine ⟨?_, ?_, ?_, by decide, ?_⟩ <;> norm_num

/-! ### Scans of the data file -/

theorem roll_exists_loop_iff (r : Int) (recs : List Student) :
    roll_exists_loop r recs = true ↔ r ∈ recs.map (fun s => s.rollNo) := by
  induction recs with
  | nil => simp [roll_exists_loop]
  | cons s rest ih =>
    by_cases h : s.rollNo = r
    · simp [roll_exists_loop, h]
    · have h2 : ¬ r = s.rollNo := fun e => h e.symm
      simp only [roll_exists_loop, if_neg h, ih, List.map_cons, List.mem_cons, h2, false_or]

theorem roll_exists_iff (f : DataFile) (r : Int) :
    roll_exists f r = true ↔ r ∈ rolls f := by
  cases f with
  | none => simp [roll_exists, rolls, records]
  | some recs => simpa [roll_exists, rolls, records] using roll_exists_loop_iff r recs

theorem roll_exists_false_iff (f : DataFile) (r : Int) :
    roll_exists f r = false ↔ r ∉ rolls f := by
  rw [← roll_exists_iff]; simp

theorem setMark_rollNo (s : Student) (i : Nat) (m : F32) : (s.setMark i m).rollNo = s.rollNo := by
  unfold Student.setMark; split <;> rfl

theorem setMark_name (s : Student) (i : Nat) (m : F32) : (s.setMark i m).name = s.name := by
  unfold Student.setMark; split <;> rfl

theorem add_marks_loop_rollNo (marks : Nat → Option F32) (l : List Nat) (s t : Student)
    (h : add_marks_loop marks l s = some t) : t.rollNo = s.rollNo := by
  induction l generalizing s with
  | nil => simp [add_marks_loop] at h; rw [← h]
  | cons i rest ih =>
    simp only [add_marks_loop] at h
    cases hm : marks i with
    | none => simp [hm] at h
    | some m => simp only [hm] at h; rw [ih _ h, setMark_rollNo]

theorem update_marks_loop_rollNo (marks : Nat → Option F32) (l : List Nat) (s : Student) :
    (update_marks_loop marks l s).rollNo = s.rollNo := by
  induction l generalizing s with
  | nil => rfl
  | cons i rest ih =>
    simp only [update_marks_loop]
    cases marks i with
    | none => exact ih s
    | some m =>
      simp only
      rw [ih]
      split
      · exact setMark_rollNo s i m
      · rfl

theorem update_record_rollNo (n : Nat) (mu : Mutation) (s : Student) :
    (update_record n mu s).rollNo = s.rollNo := by
  show (update_marks_loop mu.marks (List.range n) _).rollNo = s.rollNo
  rw [update_marks_loop_rollNo]
  split <;> rfl

/-- The moves of `addStudent_feature`: the file is left as it was, or one
record carrying the roll read is appended and the roll was not present. -/
theorem add_cases (n : Nat) (s0 : Student) (inp : AddInput) (f : DataFile) :
    ((addStudent_feature n s0 inp f).1 ≠ AddOutcome.added ∧ (addStudent_feature n s0 inp f).2 = f)
    ∨ (∃ r t, inp.roll = some r ∧ roll_exists f r = false ∧ t.rollNo = r
        ∧ (∃ t0, t = recalc_student n t0)
        ∧ addStudent_feature n s0 inp f = (AddOutcome.added, some (records f ++ [t]))) := by
  unfold addStudent_feature
  cases hroll : inp.roll with
  | none => left; simp
  | some r =>
    simp only
    by_cases hex : roll_exists f r = true
    · left; simp [hex]
    · simp only [hex, Bool.false_eq_true, if_false]
      cases hm : add_marks_loop inp.marks (List.range n) _ with
      | none => left; simp
      | some s2 =>
        right
        refine ⟨r, recalc_student n s2, rfl, by simpa using hex, ?_, ⟨s2, rfl⟩, rfl⟩
        show s2.rollNo = r
        rw [add_marks_loop_rollNo _ _ _ _ hm]

theorem delete_loop_eq (r : Int) (recs : List Student) (found : Bool) (temp : List Student) :
    delete_loop r recs found temp
      = (found || decide (r ∈ recs.map (fun s => s.rollNo)),
         temp ++ recs.filter (fun s => decide (s.rollNo ≠ r))) := by
  induction recs generalizing found temp with
  | nil => simp [delete_loop]
  | cons s rest ih =>
    by_cases h : s.rollNo = r
    · simp [delete_loop, h, ih]
    · have h2 : ¬ r = s.rollNo := fun e => h e.symm
      simp [delete_loop, h, h2, ih]

theorem delete_records (r : Int) (f : DataFile) :
    records (delete_feature (some r) f).2 = (records f).filter (fun s => decide (s.rollNo ≠ r)) := by
  cases f with
  | none => simp [delete_feature, records]
  | some recs => simp [delete_feature, records, delete_loop_eq]

/-- The function the update loop applies to the records still to read, the
`k`-th match being the next one. -/
theorem update_loop_eq (n : Nat) (r : Int) (inp : Nat → Mutation) (recs : List Student)
    (k : Nat) (found : Bool) (temp : List Student) :
    (update_loop n r inp recs k found temp).1
        = (found || decide (r ∈ recs.map (fun s => s.rollNo)))
    ∧ (update_loop n r inp recs k found temp).2
        = temp ++ (update_loop n r inp recs k false []).2 := by
  induction recs generalizing k found temp with
  | nil => simp [update_loop]
  | cons s rest ih =>
    by_cases h : s.rollNo = r
    · simp only [update_loop, if_pos h]
      refine ⟨?_, ?_⟩
      · rw [(ih (k + 1) true _).1]; simp [h]
      · rw [(ih (k + 1) true (temp ++ _)).2, (ih (k + 1) true ([] ++ _)).2]; simp
    · have h2 : ¬ r = s.rollNo := fun e => h e.symm
      simp only [update_loop, if_neg h]
      refine ⟨?_, ?_⟩
      · rw [(ih k found _).1]; simp [h2]
      · rw [(ih k found (temp ++ _)).2, (ih k false ([] ++ _)).2]; simp

theorem update_loop_cons (n : Nat) (r : Int) (inp : Nat → Mutation) (s : Student)
    (rest : List Student) (k : Nat) :
    (update_loop n r inp (s :: rest) k false []).2
      = (if s.rollNo = r then update_record n (inp k) s else s)
        :: (update_loop n r inp rest (if s.rollNo = r then k + 1 else k) false []).2 := by
  by_cases h : s.rollNo = r
  · simp only [update_loop, if_pos h]
    rw [(update_loop_eq n r inp rest (k + 1) true _).2]; simp
  · simp only [update_loop, if_neg h]
    rw [(update_loop_eq n r inp rest k false _).2]; simp

theorem update_loop_rolls (n : Nat) (r : Int) (inp : Nat → Mutation) (recs : List Student)
    (k : Nat) :
    (update_loop n r inp recs k false []).2.map (fun s => s.rollNo)
      = recs.map (fun s => s.rollNo) := by
  induction recs generalizing k with
  | nil => simp [update_loop]
  | cons s rest ih =>
    rw [update_loop_cons, List.map_cons, List.map_cons, ih]
    split
    · rw [update_record_rollNo]
    · rfl

theorem update_rolls (n : Nat) (r : Option Int) (inp : Nat → Mutation) (f : DataFile) :
    rolls (update_feature n r inp f).2 = rolls f := by
  cases r with
  | none => rfl
  | some r =>
    cases f with
    | none => rfl
    | some recs => simp [update_feature, rolls, records, update_loop_rolls]

theorem delete_rolls (r : Int) (f : DataFile) :
    rolls (delete_feature (some r) f).2 = (rolls f).filter (fun x => decide (x ≠ r)) := by
  unfold rolls
  rw [delete_records, List.filter_map]
  rfl

theorem add_rolls (n : Nat) (s0 : Student) (inp : AddInput) (f : DataFile) :
    rolls (addStudent_feature n s0 inp f).2 = rolls f
    ∨ (∃ r, inp.roll = some r ∧ r ∉ rolls f
        ∧ (addStudent_feature n s0 inp f).1 = AddOutcome.added
        ∧ rolls (addStudent_feature n s0 inp f).2 = rolls f ++ [r]) := by
  rcases add_cases n s0 inp f with h | ⟨r, t, hr, hex, ht, _, heq⟩
  · left; rw [h.2]
  · right
    refine ⟨r, hr, (roll_exists_false_iff f r).1 hex, by rw [heq], ?_⟩
    rw [heq]; simp [rolls, records, ht]

theorem step_keeps_roll (n : Nat) (g : DataFile) (op : Op) (r : Int)
    (h : r ∈ rolls g) (hop : op ≠ Op.delete (some r)) : r ∈ rolls (step n g op) := by
  cases op with
  | add s0 inp =>
    rcases add_rolls n s0 inp g with e | ⟨r2, _, _, _, e⟩
    · simpa [step, e] using h
    · simp [step, e, h]
  | update r2 inp => simpa [step, update_rolls] using h
  | delete r2 =>
    cases r2 with
    | none => simpa [step, delete_feature] using h
    | some r2 =>
      have hne : r ≠ r2 := fun e => hop (by rw [e])
      simp only [step, delete_rolls, List.mem_filter]
      exact ⟨h, by simpa using hne⟩

theorem run_keeps_roll (n : Nat) (r : Int) (ops : List Op) (g : DataFile)
    (h : r ∈ rolls g) (hops : ∀ op ∈ ops, op ≠ Op.delete (some r)) :
    r ∈ rolls (run n g ops) := by
  induction ops generalizing g with
  | nil => simpa [run] using h
  | cons op rest ih =>
    have h1 := step_keeps_roll n g op r h (hops op (List.mem_cons_self _ _))
    have h2 := ih (step n g op) h1 (fun o ho => hops o (List.mem_cons_of_mem _ ho))
    simpa [run] using h2

theorem step_nodup (n : Nat) (f : DataFile) (op : Op) (h : (rolls f).Nodup) :
    (rolls (step n f op)).Nodup := by
  cases op with
  | add s0 inp =>
    rcases add_rolls n s0 inp f with e | ⟨r, _, hnot, _, e⟩
    · simpa [step, e] using h
    · simp only [step, e]
      exact List.Nodup.append h (List.nodup_singleton r) (by simpa using hnot)
  | update r inp => simpa [step, update_rolls] using h
  | delete r =>
    cases r with
    | none => simpa [step, delete_feature] using h
    | some r => simp only [step, delete_rolls]; exact h.filter _

theorem run_nodup (n : Nat) (ops : List Op) (f : DataFile) (h : (rolls f).Nodup) :
    (rolls (run n f ops)).Nodup := by
  induction ops generalizing f with
  | nil => simpa [run] using h
  | cons op rest ih => simpa [run] using ih (step n f op) (step_nodup n f op h)

/-! ### Claims on the record store -/

/-- C2: when `roll_exists` reports the roll read by `addStudent_feature` as
present, the add ends as a duplicate before any write: the data file, its
record sequence and its length are what they were, whatever name and marks
are supplied. -/
theorem add_duplicate_rejected (n : Nat) (s0 : Student) (inp : AddInput) (f : DataFile)
    (r : Int) (hr : inp.roll = some r) (hex : roll_exists f r = true) :
    addStudent_feature n s0 inp f = (AddOutcome.duplicate, f)
    ∧ records (addStudent_feature n s0 inp f).2 = records f
    ∧ (records (addStudent_feature n s0 inp f).2).length = (records f).length := by
  have h : addStudent_feature n s0 inp f = (AddOutcome.duplicate, f) := by
    simp [addStudent_feature, hr, hex]
  rw [h]; exact ⟨rfl, rfl, rfl⟩

/-- Witness for C2: adding roll 10 again to a store that holds roll 10. -/
theorem add_duplicate_rejected_witness :
    addStudent_feature 3 ⟨0, [], marksOf [], 0, 0, 'F'⟩
        ⟨some 10, "ann lee".toList, fun _ => some 50⟩
        (some [⟨10, "Ann Lee".toList, marksOf [90, 80, 70], 240, 80, 'B'⟩])
      = (AddOutcome.duplicate, some [⟨10, "Ann Lee".toList, marksOf [90, 80, 70], 240, 80, 'B'⟩]) :=
  (add_duplicate_rejected 3 ⟨0, [], marksOf [], 0, 0, 'F'⟩
    ⟨some 10, "ann lee".toList, fun _ => some 50⟩
    (some [⟨10, "Ann Lee".toList, marksOf [90, 80, 70], 240, 80, 'B'⟩]) 10 rfl (by decide)).1

/-- C3: for a roll `r` not present in the store, `roll_exists r` is true right
after a successful add of `r`; it stays true after any further sequence of
adds, updates (of any roll) and deletes of rolls other than `r`; and an
operation after which it is no longer true is a delete of `r`. -/
theorem roll_exists_until_delete (n : Nat) (s0 : Student) (inp : AddInput) (f : DataFile)
    (r : Int) (hnew : roll_exists f r = false) (hr : inp.roll = some r)
    (hadd : (addStudent_feature n s0 inp f).1 = AddOutcome.added) :
    roll_exists (addStudent_feature n s0 inp f).2 r = true
    ∧ (∀ ops : List Op, (∀ op ∈ ops, op ≠ Op.delete (some r)) →
        roll_exists (run n (addStudent_feature n s0 inp f).2 ops) r = true)
    ∧ (∀ (g : DataFile) (op : Op), roll_exists g r = true →
        roll_exists (step n g op) r = false → op = Op.delete (some r)) := by
  have hin : r ∈ rolls (addStudent_feature n s0 inp f).2 := by
    rcases add_cases n s0 inp f with c | ⟨r3, t, hr3, _, ht, _, heq⟩
    · exact absurd hadd c.1
    · have e3 : r3 = r := by rw [hr] at hr3; exact (Option.some.inj hr3).symm
      rw [heq]; simp [rolls, records, ht, e3]
  refine ⟨(roll_exists_iff _ r).2 hin, ?_, ?_⟩
  · intro ops hops
    exact (roll_exists_iff _ r).2 (run_keeps_roll n r ops _ hin hops)
  · intro g op hg hafter
    by_contra hop
    have := step_keeps_roll n g op r ((roll_exists_iff g r).1 hg) hop
    rw [(roll_exists_iff _ r).2 this] at hafter
    exact Bool.noConfusion hafter

/-- Witness for C3: roll 10 added to the absent (empty) store. -/
theorem roll_exists_until_delete_witness :
    roll_exists (addStudent_feature 3 ⟨0, [], marksOf [], 0, 0, 'F'⟩
        ⟨some 10, "ann lee".toList, fun _ => some 50⟩ none).2 10 = true :=
  (roll_exists_until_delete 3 ⟨0, [], marksOf [], 0, 0, 'F'⟩
    ⟨some 10, "ann lee".toList, fun _ => some 50⟩ none 10 rfl rfl rfl).1

/-- C5: the store after `delete_feature r` is the original record sequence
without the records of roll `r`, the others unchanged and in their order; it
holds no record of roll `r`; and when the store held `r` and its rolls were
pairwise distinct, it holds exactly one record fewer. -/
theorem delete_feature_spec (r : Int) (f : DataFile) :
    records (delete_feature (some r) f).2 = (records f).filter (fun s => decide (s.rollNo ≠ r))
    ∧ (∀ s ∈ records (delete_feature (some r) f).2, s.rollNo ≠ r)
    ∧ roll_exists (delete_feature (some r) f).2 r = false
    ∧ ((rolls f).Nodup → r ∈ rolls f →
        (records (delete_feature (some r) f).2).length + 1 = (records f).length) := by
  have hrec := delete_records r f
  refine ⟨hrec, ?_, ?_, ?_⟩
  · intro s hs
    rw [hrec, List.mem_filter] at hs
    simpa using hs.2
  · rw [roll_exists_false_iff, delete_rolls]
    simp
  · intro hnd hin
    rw [hrec]
    have hcount : (records f).countP (fun s => decide (s.rollNo = r)) = 1 := by
      have h1 : (rolls f).count r = 1 := List.count_eq_one_of_mem hnd hin
      have h2 : (rolls f).count r = (records f).countP (fun s => decide (s.rollNo = r)) := by
        unfold rolls
        rw [List.count, List.countP_map]
        congr 1
      rw [← h2, h1]
    have hsplit := List.length_eq_countP_add_countP (fun s => decide (s.rollNo = r)) (records f)
    rw [hcount] at hsplit
    rw [hsplit, List.countP_eq_length_filter]
    have hfun : (fun s : Student => decide (s.rollNo ≠ r))
        = (fun s : Student => decide ¬ (decide (s.rollNo = r)) = true) := by
      funext s; simp
    rw [hfun]; omega

/-- Witness for C5: deleting roll 2 from a store with rolls 1, 2, 3. -/
theorem delete_feature_spec_witness :
    (records (delete_feature (some 2)
        (some [⟨1, [], marksOf [], 0, 0, 'F'⟩, ⟨2, [], marksOf [], 0, 0, 'F'⟩,
          ⟨3, [], marksOf [], 0, 0, 'F'⟩])).2).length + 1
      = (records (some [⟨1, [], marksOf [], 0, 0, 'F'⟩, ⟨2, [], marksOf [], 0, 0, 'F'⟩,
          ⟨3, [], marksOf [], 0, 0, 'F'⟩])).length :=
  (delete_feature_spec 2
    (some [⟨1, [], marksOf [], 0, 0, 'F'⟩, ⟨2, [], marksOf [], 0, 0, 'F'⟩,
      ⟨3, [], marksOf [], 0, 0, 'F'⟩])).2.2.2 (by decide) (by decide)

/-- C6 (as amended): when the data file exists and holds the records `recs`,
none of which has roll `r`, `delete_feature r` reports "not found" and the file
it rewrites through `temp.dat` holds the same records with the same values in
the same order, hence the same count. When the data file does not exist,
`delete_feature r` ends at "No records found." without any rewrite, and there
is still no data file. -/
theorem delete_absent_roll (r : Int) (recs : List Student) (h : ∀ s ∈ recs, s.rollNo ≠ r) :
    delete_feature (some r) (some recs) = (ScanOutcome.notFound, some recs)
    ∧ records (delete_feature (some r) (some recs)).2 = recs
    ∧ (records (delete_feature (some r) (some recs)).2).length = recs.length
    ∧ delete_feature (some r) none = (ScanOutcome.noFile, none) := by
  have hnot : r ∉ recs.map (fun s => s.rollNo) := by
    intro hin
    rcases List.mem_map.1 hin with ⟨s, hs, e⟩
    exact h s hs e
  have hfil : recs.filter (fun s => decide (s.rollNo ≠ r)) = recs :=
    List.filter_eq_self.2 (fun s hs => by simpa using h s hs)
  have heq : delete_feature (some r) (some recs) = (ScanOutcome.notFound, some recs) := by
    have hnot2 : decide (r ∈ recs.map (fun s => s.rollNo)) = false := by simpa using hnot
    simp only [delete_feature, delete_loop_eq, hnot2, hfil]
    simp
  rw [heq]; exact ⟨rfl, rfl, rfl, rfl⟩

/-- Witness for C6 (as amended): deleting roll 99 from a store with rolls 1, 2,
3. -/
theorem delete_absent_roll_witness :
    delete_feature (some 99)
        (some [⟨1, "A".toList, marksOf [50], 50, 50, 'D'⟩, ⟨2, "B".toList, marksOf [60], 60, 60, 'C'⟩,
          ⟨3, "C".toList, marksOf [70], 70, 70, 'C'⟩])
      = (ScanOutcome.notFound,
          some [⟨1, "A".toList, marksOf [50], 50, 50, 'D'⟩, ⟨2, "B".toList, marksOf [60], 60, 60, 'C'⟩,
            ⟨3, "C".toList, marksOf [70], 70, 70, 'C'⟩]) :=
  (delete_absent_roll 99
    [⟨1, "A".toList, marksOf [50], 50, 50, 'D'⟩, ⟨2, "B".toList, marksOf [60], 60, 60, 'C'⟩,
      ⟨3, "C".toList, marksOf [70], 70, 70, 'C'⟩] (by decide)).1

/-- C6 (counterexample): the store whose data file does not exist has no
record, hence none of roll 99, yet `delete_feature 99` does not report
"not found": it ends at "No records found." before the loop. -/
theorem delete_absent_roll_no_file :
    records none = []
    ∧ (delete_feature (some 99) none).1 = ScanOutcome.noFile
    ∧ (delete_feature (some 99) none).1 ≠ ScanOutcome.notFound := by
  decide

/-- C7: uniqueness of roll numbers is an invariant of the store: when no two
records share a roll, none do after any add (accepted or rejected), any update
and any delete; hence none do in any store reached from the empty store
(absent or empty file) by these operations. -/
theorem roll_unique_invariant (n : Nat) :
    (∀ (f : DataFile) (op : Op), (rolls f).Nodup → (rolls (step n f op)).Nodup)
    ∧ (∀ (f : DataFile) (ops : List Op), (rolls f).Nodup → (rolls (run n f ops)).Nodup)
    ∧ (∀ ops : List Op, (rolls (run n none ops)).Nodup)
    ∧ (∀ ops : List Op, (rolls (run n (some []) ops)).Nodup) :=
  ⟨fun f op h => step_nodup n f op h, fun f ops h => run_nodup n ops f h,
    fun ops => run_nodup n ops none (by simp [rolls, records]),
    fun ops => run_nodup n ops (some []) (by simp [rolls, records])⟩

/-- Witness for C7: a second add of roll 1 leaves a store with rolls 1, 2
free of repeated rolls. -/
theorem roll_unique_invariant_witness :
    (rolls (step 3 (some [⟨1, [], marksOf [], 0, 0, 'F'⟩, ⟨2, [], marksOf [], 0, 0, 'F'⟩])
      (Op.add ⟨0, [], marksOf [], 0, 0, 'F'⟩ ⟨some 1, [], fun _ => some 0⟩))).Nodup :=
  (roll_unique_invariant 3).1
    (some [⟨1, [], marksOf [], 0, 0, 'F'⟩, ⟨2, [], marksOf [], 0, 0, 'F'⟩])
    (Op.add ⟨0, [], marksOf [], 0, 0, 'F'⟩ ⟨some 1, [], fun _ => some 0⟩) (by decide)

/-! ### Update -/

theorem recalc_student_idem (n : Nat) (s : Student) :
    recalc_student n (recalc_student n s) = recalc_student n s := rfl

theorem setMark_marks (s : Student) (i : Nat) (m : F32) (j : Fin MAX_SUBJECTS) :
    (s.setMark i m).marks j = if j.val = i then m else s.marks j := by
  unfold Student.setMark
  by_cases h : i < MAX_SUBJECTS
  · rw [dif_pos h]
    by_cases hj : j.val = i
    · have : j = ⟨i, h⟩ := Fin.ext hj
      rw [if_pos hj]
      show Function.update s.marks ⟨i, h⟩ m j = m
      rw [this, Function.update_same]
    · have : j ≠ ⟨i, h⟩ := fun e => hj (by rw [e])
      simp [Function.update_noteq this, hj]
  · rw [dif_neg h]
    have : j.val ≠ i := fun e => h (e ▸ j.isLt)
    simp [this]

theorem update_marks_loop_name (marks : Nat → Option F32) (l : List Nat) (s : Student) :
    (update_marks_loop marks l s).name = s.name := by
  induction l generalizing s with
  | nil => rfl
  | cons i rest ih =>
    simp only [update_marks_loop]
    cases marks i with
    | none => exact ih s
    | some m =>
      simp only
      rw [ih]
      split
      · exact setMark_name s i m
      · rfl

theorem update_marks_loop_marks (marks : Nat → Option F32) (l : List Nat) (hl : l.Nodup)
    (s : Student) (j : Fin MAX_SUBJECTS) :
    (update_marks_loop marks l s).marks j
      = if j.val ∈ l then
          (match marks j.val with
            | some m => if fge m 0 = true then m else s.marks j
            | none => s.marks j)
        else s.marks j := by
  induction l generalizing s with
  | nil => simp [update_marks_loop]
  | cons i rest ih =>
    have hi : i ∉ rest := (List.nodup_cons.1 hl).1
    have hrest : rest.Nodup := (List.nodup_cons.1 hl).2
    simp only [update_marks_loop]
    by_cases hj : j.val = i
    · have hjr : j.val ∉ rest := hj ▸ hi
      cases hm : marks i with
      | none => simp [ih hrest, hjr, hj, hm]
      | some m =>
        simp only [ih hrest, hjr, hj, hm, if_false, List.mem_cons, true_or, if_true]
        by_cases h0 : fge m 0 = true
        · simp [h0, setMark_marks, hj]
        · simp [h0]
    · have hunch : ∀ s2 : Student, (∃ m, s2 = s.setMark i m) ∨ s2 = s → s2.marks j = s.marks j := by
        intro s2 h2
        rcases h2 with ⟨m, e⟩ | e
        · rw [e, setMark_marks, if_neg hj]
        · rw [e]
      cases hm : marks i with
      | none => simp [ih hrest, hj]
      | some m =>
        simp only [ih hrest, List.mem_cons, hj, false_or]
        by_cases h0 : fge m 0 = true
        · simp only [h0, if_true]
          rw [hunch (s.setMark i m) (Or.inl ⟨m, rfl⟩)]
        · have h0f : fge m 0 = false := by simpa using h0
          simp [h0f]

theorem update_record_name (n : Nat) (mu : Mutation) (s : Student) :
    (update_record n mu s).name
      = if mu.newname = [] then s.name else to_titlecase mu.newname := by
  show (update_marks_loop mu.marks (List.range n) _).name = _
  rw [update_marks_loop_name]
  cases h : mu.newname with
  | nil => simp
  | cons c cs => simp

theorem update_record_marks (n : Nat) (mu : Mutation) (s : Student) (j : Fin MAX_SUBJECTS) :
    (update_record n mu s).marks j
      = if j.val < n then
          (match mu.marks j.val with
            | some m => if fge m 0 = true then m else s.marks j
            | none => s.marks j)
        else s.marks j := by
  show (update_marks_loop mu.marks (List.range n) _).marks j = _
  rw [update_marks_loop_marks _ _ (List.nodup_range n)]
  have hs : ∀ s1 : Student, s1.marks = s.marks →
      (if j.val ∈ List.range n then
          (match mu.marks j.val with
            | some m => if fge m 0 = true then m else s1.marks j
            | none => s1.marks j)
        else s1.marks j)
      = (if j.val < n then
          (match mu.marks j.val with
            | some m => if fge m 0 = true then m else s.marks j
            | none => s.marks j)
        else s.marks j) := by
    intro s1 e
    rw [e]; simp only [List.mem_range]
  apply hs
  split <;> rfl

theorem update_loop_get (n : Nat) (r : Int) (inp : Nat → Mutation) (recs : List Student)
    (k i : Nat) (s : Student) (h : recs[i]? = some s) :
    (update_loop n r inp recs k false []).2[i]?
      = some (if s.rollNo = r then
          update_record n (inp (k + (recs.take i).countP (fun x => decide (x.rollNo = r)))) s
        else s) := by
  induction recs generalizing k i with
  | nil => simp at h
  | cons a rest ih =>
    rw [update_loop_cons]
    cases i with
    | zero =>
      simp only [List.getElem?_cons_zero, Option.some.injEq] at h
      simp [h]
    | succ i =>
      simp only [List.getElem?_cons_succ] at h
      simp only [List.getElem?_cons_succ, List.take_succ_cons, List.countP_cons]
      rw [ih _ i h]
      by_cases ha : a.rollNo = r
      · simp only [ha, if_true, decide_True]
        have : k + 1 + List.countP (fun x => decide (x.rollNo = r)) (List.take i rest)
            = k + (List.countP (fun x => decide (x.rollNo = r)) (List.take i rest) + 1) := by
          omega
        rw [this]
      · simp [ha]

theorem update_loop_nomatch (n : Nat) (r : Int) (inp : Nat → Mutation) (recs : List Student)
    (k : Nat) (h : ∀ s ∈ recs, s.rollNo ≠ r) :
    update_loop n r inp recs k false [] = (false, recs) := by
  induction recs generalizing k with
  | nil => rfl
  | cons a rest ih =>
    have ha : a.rollNo ≠ r := h a (List.mem_cons_self _ _)
    have hrest := ih k (fun s hs => h s (List.mem_cons_of_mem _ hs))
    have e := update_loop_eq n r inp rest k false ([] ++ [a])
    simp only [update_loop, if_neg ha]
    apply Prod.ext
    · rw [e.1]; simp
      intro x hx; exact fun hr => h x (List.mem_cons_of_mem _ hx) hr
    · rw [e.2, hrest]; simp

/-- C4: after `update_feature r` the store has as many records as before, in
the same order; a record whose roll is not `r` is identical to the original; a
record of roll `r` keeps its roll, has the new name in title case when one is
typed (its old name on a blank line), has at each of the first `n` subjects the
mark typed when it is non-negative (its old mark when the entry is negative or
unreadable), its old marks elsewhere, and has the total, percentage and grade
that `recalc_student` computes from these marks. The `k`-th record of roll `r`
is given the `k`-th mutation read. When no record has roll `r` the store is the
original. -/
theorem update_feature_frame (n : Nat) (r : Int) (inp : Nat → Mutation) (f : DataFile) :
    (records (update_feature n (some r) inp f).2).length = (records f).length
    ∧ (∀ (i : Nat) (s : Student), (records f)[i]? = some s →
        ∃ t, (records (update_feature n (some r) inp f).2)[i]? = some t
          ∧ (s.rollNo ≠ r → t = s)
          ∧ (s.rollNo = r →
              t.rollNo = r
              ∧ t.name
                  = (if (inp (((records f).take i).countP (fun x => decide (x.rollNo = r)))).newname
                        = [] then s.name
                    else to_titlecase
                      (inp (((records f).take i).countP (fun x => decide (x.rollNo = r)))).newname)
              ∧ (∀ j : Fin MAX_SUBJECTS, t.marks j
                  = if j.val < n then
                      (match (inp (((records f).take i).countP
                          (fun x => decide (x.rollNo = r)))).marks j.val with
                        | some m => if fge m 0 = true then m else s.marks j
                        | none => s.marks j)
                    else s.marks j)
              ∧ recalc_student n t = t))
    ∧ ((∀ s ∈ records f, s.rollNo ≠ r) → (update_feature n (some r) inp f).2 = f) := by
  refine ⟨?_, ?_, ?_⟩
  · have := congrArg List.length (update_rolls n (some r) inp f)
    simpa [rolls] using this
  · intro i s hs
    cases f with
    | none => simp [records] at hs
    | some recs =>
      simp only [records] at hs
      have hget := update_loop_get n r inp recs 0 i s hs
      simp only [Nat.zero_add] at hget
      refine ⟨_, hget, ?_, ?_⟩
      · intro hne; rw [if_neg hne]
      · intro he
        rw [if_pos he]
        refine ⟨?_, ?_, ?_, ?_⟩
        · rw [update_record_rollNo, he]
        · exact update_record_name n _ s
        · intro j; exact update_record_marks n _ s j
        · exact recalc_student_idem n _
  · intro h
    cases f with
    | none => rfl
    | some recs =>
      simp only [records] at h
      simp [update_feature, update_loop_nomatch n r inp recs 0 h]

/-- Witness for C4: updating roll 9, which a store with rolls 1, 2 does not
hold, leaves the store as it was. -/
theorem update_feature_frame_witness :
    (update_feature 3 (some 9) (fun _ => ⟨"new name".toList, fun _ => some 50⟩)
        (some [⟨1, "A".toList, marksOf [50], 50, 50, 'D'⟩,
          ⟨2, "B".toList, marksOf [60], 60, 60, 'C'⟩])).2
      = some [⟨1, "A".toList, marksOf [50], 50, 50, 'D'⟩,
          ⟨2, "B".toList, marksOf [60], 60, 60, 'C'⟩] :=
  (update_feature_frame 3 9 (fun _ => ⟨"new name".toList, fun _ => some 50⟩)
    (some [⟨1, "A".toList, marksOf [50], 50, 50, 'D'⟩,
      ⟨2, "B".toList, marksOf [60], 60, 60, 'C'⟩])).2.2 (by decide)


/-! ### Derived fields in the store -/

theorem fsum_first_congr (t u : Student) (h : t.marks = u.marks) (n : Nat) :
    fsum_first t n = fsum_first u n := by
  have hmark : t.mark = u.mark := by
    funext i
    simp only [Student.mark, h]
  induction n with
  | zero => rfl
  | succ k ih => simp only [fsum_first, ih, hmark]

theorem recalc_student_consistent (n : Nat) (s : Student) :
    derived_consistent n (recalc_student n s) :=
  ⟨(foldl_fadd_mark s n).trans (fsum_first_congr s (recalc_student n s) rfl n), rfl, rfl⟩

theorem update_loop_mem (n : Nat) (r : Int) (inp : Nat → Mutation) (recs : List Student)
    (k : Nat) (s : Student) (h : s ∈ (update_loop n r inp recs k false []).2) :
    s ∈ recs ∨ ∃ t, s = recalc_student n t := by
  induction recs generalizing k with
  | nil => simp [update_loop] at h
  | cons a rest ih =>
    rw [update_loop_cons, List.mem_cons] at h
    rcases h with h | h
    · by_cases ha : a.rollNo = r
      · rw [if_pos ha] at h
        exact Or.inr ⟨_, h⟩
      · rw [if_neg ha] at h
        exact Or.inl (h ▸ List.mem_cons_self _ _)
    · rcases ih _ h with h2 | h2
      · exact Or.inl (List.mem_cons_of_mem _ h2)
      · exact Or.inr h2

theorem step_mem (n : Nat) (f : DataFile) (op : Op) (s : Student)
    (h : s ∈ records (step n f op)) : s ∈ records f ∨ ∃ t, s = recalc_student n t := by
  cases op with
  | add s0 inp =>
    rcases add_cases n s0 inp f with c | ⟨r, t, _, _, _, ht, heq⟩
    · left; simpa [step, c.2] using h
    · simp only [step, heq, records, List.mem_append, List.mem_singleton] at h
      rcases h with h | h
      · exact Or.inl h
      · exact Or.inr (h ▸ ht)
  | update r inp =>
    cases r with
    | none => exact Or.inl h
    | some r =>
      cases f with
      | none => exact Or.inl h
      | some recs => exact update_loop_mem n r inp recs 0 s h
  | delete r =>
    cases r with
    | none => exact Or.inl h
    | some r =>
      simp only [step, delete_records, List.mem_filter] at h
      exact Or.inl h.1

theorem step_consistent (n : Nat) (f : DataFile) (op : Op)
    (h : ∀ s ∈ records f, derived_consistent n s) :
    ∀ s ∈ records (step n f op), derived_consistent n s := by
  intro s hs
  rcases step_mem n f op s hs with h1 | ⟨t, ht⟩
  · exact h s h1
  · rw [ht]; exact recalc_student_consistent n t

theorem run_consistent (n : Nat) (ops : List Op) (f : DataFile)
    (h : ∀ s ∈ records f, derived_consistent n s) :
    ∀ s ∈ records (run n f ops), derived_consistent n s := by
  induction ops generalizing f with
  | nil => simpa [run] using h
  | cons op rest ih => simpa [run] using ih (step n f op) (step_consistent n f op h)

/-- C8 (as amended): with a fixed subject count `1 ≤ n ≤ 10`, consistency of
the derived fields in the arithmetic of the program is an invariant of the
store: when every stored record has `total` equal to the binary32 sum of its
first `n` marks, `percentage` equal to the binary32 quotient `total / n` and
`grade` equal to the threshold grade of `percentage`, so has every stored
record after any add, update or delete, and after any sequence of them; and a
record of the store after an operation is a record of the store before it or a
result of `recalc_student`. -/
theorem derived_fields_invariant (n : Nat) (h1 : 1 ≤ n) (h10 : n ≤ MAX_SUBJECTS) :
    (∀ (f : DataFile) (op : Op), (∀ s ∈ records f, derived_consistent n s) →
        ∀ s ∈ records (step n f op), derived_consistent n s)
    ∧ (∀ (f : DataFile) (ops : List Op), (∀ s ∈ records f, derived_consistent n s) →
        ∀ s ∈ records (run n f ops), derived_consistent n s)
    ∧ (∀ (f : DataFile) (op : Op) (s : Student), s ∈ records (step n f op) →
        s ∈ records f ∨ ∃ t, s = recalc_student n t) :=
  ⟨fun f op h => step_consistent n f op h, fun f ops h => run_consistent n ops f h,
    fun f op s h => step_mem n f op s h⟩

/-- Witness for C8 (as amended): the record stored by an add of roll 10 to the
absent store, with three subjects, has consistent derived fields. -/
theorem derived_fields_invariant_witness :
    derived_consistent 3
      ((records (step 3 none
        (Op.add ⟨0, [], marksOf [], 0, 0, 'F'⟩
          ⟨some 10, "ann lee".toList, fun _ => some 50⟩))).getD 0 ⟨0, [], marksOf [], 0, 0, 'F'⟩) :=
  (derived_fields_invariant 3 (by decide) (by decide)).1 none
    (Op.add ⟨0, [], marksOf [], 0, 0, 'F'⟩ ⟨some 10, "ann lee".toList, fun _ => some 50⟩)
    (by simp [records]) _ (List.Mem.head _)

/-- C8 (counterexample): the absent store has no record, so every stored
record has its derived fields consistent in exact arithmetic; after an add of
marks 100, 100, 0 under three subjects the stored record has total 200 but a
percentage that is not `200 / 3`, so exact consistency does not hold of it. -/
theorem derived_exact_not_preserved :
    (∀ s ∈ records none, derived_exact 3 s)
    ∧ ¬ (∀ s ∈ records (step 3 none
          (Op.add ⟨0, [], marksOf [], 0, 0, 'F'⟩
            ⟨some 1, "ann".toList, fun i => [some 100, some 100, some 0].getD i none⟩)),
        derived_exact 3 s) := by
  constructor
  · intro s hs
    simp [records] at hs
  · intro hall
    have hmap : (records (step 3 none
          (Op.add ⟨0, [], marksOf [], 0, 0, 'F'⟩
            ⟨some 1, "ann".toList, fun i => [some 100, some 100, some 0].getD i none⟩))).map
          (fun t => (t.total, t.percentage))
        = [(F32.fin (Int.ofNat (200 * 2 ^ 149)), F32.fin (Int.ofNat (8738133 * 2 ^ 132)))] := by
      decide
    cases hrecs : records (step 3 none
          (Op.add ⟨0, [], marksOf [], 0, 0, 'F'⟩
            ⟨some 1, "ann".toList, fun i => [some 100, some 100, some 0].getD i none⟩)) with
    | nil => rw [hrecs] at hmap; simp at hmap
    | cons t rest =>
      rw [hrecs] at hmap hall
      simp only [List.map_cons, List.cons.injEq, Prod.mk.injEq] at hmap
      have hp := (hall t (List.mem_cons_self _ _)).2.1
      rw [hmap.1.1, hmap.1.2] at hp
      simp only [F32.val_fin, Int.ofNat_eq_coe] at hp
      norm_num at hp


/-! ### Sorting -/

theorem wrap32_of_range (x : Int) (h1 : -2147483648 ≤ x) (h2 : x ≤ 2147483647) :
    wrap32 x = x := by
  unfold wrap32; omega

/-- Where the difference of the rolls fits in an `int`, the sign of
`compare_by_roll` is the order of the rolls. -/
theorem compare_by_roll_sign (a b : Student)
    (h1 : -2147483648 ≤ a.rollNo - b.rollNo) (h2 : a.rollNo - b.rollNo ≤ 2147483647) :
    (compare_by_roll a b < 0 ↔ a.rollNo < b.rollNo)
    ∧ (compare_by_roll a b = 0 ↔ a.rollNo = b.rollNo)
    ∧ (0 < compare_by_roll a b ↔ b.rollNo < a.rollNo) := by
  unfold compare_by_roll
  rw [wrap32_of_range _ h1 h2]
  omega

/-- On records with the rolls 5, 1, 3 the sort by `compare_by_roll` returns
them in the order 1, 3, 5. -/
theorem qsort_by_roll_example (a b c : Student)
    (ha : a.rollNo = 5) (hb : b.rollNo = 1) (hc : c.rollNo = 3) :
    qsort compare_by_roll [a, b, c] = [b, c, a] := by
  have hbc : compare_by_roll b c ≤ 0 := by rw [compare_by_roll, hb, hc]; decide
  have hab : ¬ compare_by_roll a b ≤ 0 := by rw [compare_by_roll, ha, hb]; decide
  have hac : ¬ compare_by_roll a c ≤ 0 := by rw [compare_by_roll, ha, hc]; decide
  simp [qsort, msort, merge_loop, hbc, hab, hac]

/-- C9 (failing input): on the rolls `-2147483648` and `1`, both 32-bit
integers, `compare_by_roll` returns `2147483647`, a positive value, although the
first roll is the smaller one; on `2147483647` and `-1` it returns
`-2147483648`, a negative value, although the first roll is the larger one; the
only arrangement of the first pair in which no earlier record compares greater
than a later one puts roll 1 before roll `-2147483648`, and that is the
arrangement the sort returns. -/
theorem compare_by_roll_overflow :
    compare_by_roll ⟨-2147483648, [], marksOf [], 0, 0, 'F'⟩ ⟨1, [], marksOf [], 0, 0, 'F'⟩
        = 2147483647
    ∧ (-2147483648 : Int) < 1
    ∧ compare_by_roll ⟨2147483647, [], marksOf [], 0, 0, 'F'⟩ ⟨-1, [], marksOf [], 0, 0, 'F'⟩
        = -2147483648
    ∧ (-1 : Int) < 2147483647
    ∧ (List.Perm
          [(⟨1, [], marksOf [], 0, 0, 'F'⟩ : Student), ⟨-2147483648, [], marksOf [], 0, 0, 'F'⟩]
          [⟨-2147483648, [], marksOf [], 0, 0, 'F'⟩, ⟨1, [], marksOf [], 0, 0, 'F'⟩]
        ∧ List.Pairwise (fun x y => compare_by_roll x y ≤ 0)
          [(⟨1, [], marksOf [], 0, 0, 'F'⟩ : Student), ⟨-2147483648, [], marksOf [], 0, 0, 'F'⟩])
    ∧ ¬ (List.Perm
          [(⟨-2147483648, [], marksOf [], 0, 0, 'F'⟩ : Student), ⟨1, [], marksOf [], 0, 0, 'F'⟩]
          [⟨-2147483648, [], marksOf [], 0, 0, 'F'⟩, ⟨1, [], marksOf [], 0, 0, 'F'⟩]
        ∧ List.Pairwise (fun x y => compare_by_roll x y ≤ 0)
          [(⟨-2147483648, [], marksOf [], 0, 0, 'F'⟩ : Student), ⟨1, [], marksOf [], 0, 0, 'F'⟩])
    ∧ qsort compare_by_roll
        [⟨-2147483648, [], marksOf [], 0, 0, 'F'⟩, ⟨1, [], marksOf [], 0, 0, 'F'⟩]
      = [⟨1, [], marksOf [], 0, 0, 'F'⟩, ⟨-2147483648, [], marksOf [], 0, 0, 'F'⟩] := by
  decide

theorem fle_of_flt (a b : F32) (h : flt a b = true) : fle a b = true := by
  cases a <;> cases b <;> simp_all [flt, fle]
  omega

theorem fle_of_not_flt (a b : F32) (ha : a ≠ F32.nan) (hb : b ≠ F32.nan)
    (h : flt a b = false) : fle b a = true := by
  cases a <;> cases b <;> simp_all [flt, fle]
  first
    | omega
    | (rename_i x y; cases x <;> cases y <;> simp_all)

theorem copy_loop_eq (src dst : List Nat) : copy_loop src dst = dst ++ src := by
  generalize hn : src.length = n
  induction n using Nat.strong_induction_on generalizing src dst with
  | _ n ih =>
    rw [copy_loop]
    by_cases h : 0 < (src.take 4096).length
    · rw [dif_pos h]
      have hlt : (src.drop 4096).length < n := by
        simp only [List.length_take, List.length_drop] at h ⊢
        omega
      rw [ih _ hlt (src.drop 4096) (dst ++ src.take 4096) rfl, List.append_assoc,
        List.take_append_drop]
    · rw [dif_neg h]
      have h0 : src.length = 0 := by
        simp only [List.length_take] at h
        omega
      rw [List.length_eq_zero.1 h0, List.append_nil]

/-- C11: when the data file exists with byte content `B`, `backup_data`
leaves the data file with content `B`; and after `backup_data`, whatever the
data file then becomes (absent, empty, or any other content), `restore_data`
makes its content exactly `B`. The backup file before the backup is
arbitrary. -/
theorem backup_restore_roundtrip (B : List Nat) (old_backup : Option (List Nat)) :
    (backup_data ⟨some B, old_backup⟩).data = some B
    ∧ (backup_data ⟨some B, old_backup⟩).backup = some B
    ∧ (∀ changed : Option (List Nat),
        (restore_data ⟨changed, (backup_data ⟨some B, old_backup⟩).backup⟩).data = some B)
    ∧ (∀ changed : Option (List Nat),
        (restore_data ⟨changed, (backup_data ⟨some B, old_backup⟩).backup⟩).backup = some B) := by
  have hb : (backup_data ⟨some B, old_backup⟩).backup = some B := by
    simp [backup_data, copy_loop_eq]
  refine ⟨rfl, hb, ?_, ?_⟩
  · intro changed
    rw [hb]; simp [restore_data, copy_loop_eq]
  · intro changed
    rw [hb]; simp [restore_data]

/-- Witness for C11: a three-byte store is backed up, cleared, and restored. -/
theorem backup_restore_roundtrip_witness :
    (restore_data ⟨some [], (backup_data ⟨some [1, 2, 3], none⟩).backup⟩).data
      = some [1, 2, 3] :=
  (backup_restore_roundtrip [1, 2, 3] none).2.2.1 (some [])

/-! ### Idempotence of the derived fields -/

/-- C12: for a subject count `1 ≤ n ≤ 10`, `recalc_student` applied to its own
result gives the same record as applied once: same marks, total, percentage
and grade (and same roll and name). -/
theorem recalc_student_idempotent (n : Nat) (s : Student) (h1 : 1 ≤ n) (h10 : n ≤ MAX_SUBJECTS) :
    recalc_student n (recalc_student n s) = recalc_student n s
    ∧ (recalc_student n (recalc_student n s)).marks = (recalc_student n s).marks
    ∧ (recalc_student n (recalc_student n s)).total = (recalc_student n s).total
    ∧ (recalc_student n (recalc_student n s)).percentage = (recalc_student n s).percentage
    ∧ (recalc_student n (recalc_student n s)).grade = (recalc_student n s).grade := by
  have h := recalc_student_idem n s
  exact ⟨h, by rw [h], by rw [h], by rw [h], by rw [h]⟩

/-- Witness for C12 at `n = 3` on a record with marks 90, 80, 70 and stale
derived fields. -/
theorem recalc_student_idempotent_witness :
    recalc_student 3 (recalc_student 3 ⟨10, [], marksOf [90, 80, 70], 1, 2, 'A'⟩)
      = recalc_student 3 ⟨10, [], marksOf [90, 80, 70], 1, 2, 'A'⟩ :=
  (recalc_student_idempotent 3 ⟨10, [], marksOf [90, 80, 70], 1, 2, 'A'⟩
    (by decide) (by decide)).1


/-! ### Title case -/

theorem to_titlecase_loop_cons (c : Char) (cs : List Char) (cap : Bool) :
    to_titlecase_loop (c :: cs) cap
      = (if isspace c = true then c else if cap = true then toupper c else tolower c)
        :: to_titlecase_loop cs (isspace c) := by
  by_cases hsp : isspace c = true
  · simp [to_titlecase_loop, hsp]
  · have hf : isspace c = false := by simpa using hsp
    cases cap <;> simp [to_titlecase_loop, hf]

theorem to_titlecase_loop_length (s : List Char) (cap : Bool) :
    (to_titlecase_loop s cap).length = s.length := by
  induction s generalizing cap with
  | nil => rfl
  | cons c cs ih => rw [to_titlecase_loop_cons, List.length_cons, List.length_cons, ih]

theorem to_titlecase_loop_get (s : List Char) (cap : Bool) (i : Nat) (c : Char)
    (h : s[i]? = some c) :
    (to_titlecase_loop s cap)[i]?
      = some (if isspace c = true then c
          else if cap_before s cap i = true then toupper c else tolower c) := by
  induction s generalizing cap i with
  | nil => simp at h
  | cons a rest ih =>
    rw [to_titlecase_loop_cons]
    cases i with
    | zero =>
      simp only [List.getElem?_cons_zero, Option.some.injEq] at h
      simp [h, cap_before]
    | succ j =>
      simp only [List.getElem?_cons_succ] at h
      rw [List.getElem?_cons_succ, ih (isspace a) j h]
      have hcap : cap_before rest (isspace a) j = cap_before (a :: rest) cap (j + 1) := by
        cases j with
        | zero => simp [cap_before]
        | succ k => simp [cap_before]
      rw [hcap]

theorem letter_pairs_codes :
    ∀ q ∈ letter_pairs, (97 ≤ q.1.toNat ∧ q.1.toNat ≤ 122) ∧ (65 ≤ q.2.toNat ∧ q.2.toNat ≤ 90) := by
  decide

theorem toupper_eq_upper_of (c : Char) : toupper c = upper_of c := by
  by_cases h : 97 ≤ c.toNat ∧ c.toNat ≤ 122
  · obtain ⟨n, hc, h1, h2⟩ : ∃ n, c = Char.ofNat n ∧ 97 ≤ n ∧ n ≤ 122 :=
      ⟨c.toNat, (Char.ofNat_toNat c).symm, h.1, h.2⟩
    subst hc
    interval_cases n <;> decide
  · have hnone : letter_pairs.find? (fun q => decide (q.1 = c)) = none := by
      rw [List.find?_eq_none]
      intro q hq hqc
      have := (letter_pairs_codes q hq).1
      rw [show q.1 = c by simpa using hqc] at this
      exact h this
    rw [toupper, if_neg h, upper_of, hnone]

theorem tolower_eq_lower_of (c : Char) : tolower c = lower_of c := by
  by_cases h : 65 ≤ c.toNat ∧ c.toNat ≤ 90
  · obtain ⟨n, hc, h1, h2⟩ : ∃ n, c = Char.ofNat n ∧ 65 ≤ n ∧ n ≤ 90 :=
      ⟨c.toNat, (Char.ofNat_toNat c).symm, h.1, h.2⟩
    subst hc
    interval_cases n <;> decide
  · have hnone : letter_pairs.find? (fun q => decide (q.2 = c)) = none := by
      rw [List.find?_eq_none]
      intro q hq hqc
      have := (letter_pairs_codes q hq).2
      rw [show q.2 = c by simpa using hqc] at this
      exact h this
    rw [tolower, if_neg h, lower_of, hnone]

theorem isspace_eq_is_blank (c : Char) : isspace c = is_blank c := by
  unfold isspace is_blank
  by_cases h : 9 ≤ c.toNat ∧ c.toNat ≤ 32
  · obtain ⟨n, hn⟩ : ∃ n, c.toNat = n := ⟨_, rfl⟩
    rw [hn] at h ⊢
    obtain ⟨h1, h2⟩ := h
    interval_cases n <;> decide
  · have h32 : c.toNat ≠ 32 := fun e => h (by omega)
    have h913 : ¬ (9 ≤ c.toNat ∧ c.toNat ≤ 13) := fun e => h (by omega)
    have hl : ∀ k ∈ [32, 9, 10, 11, 12, 13], c.toNat ≠ k := by
      intro k hk e
      simp only [List.mem_cons, List.mem_singleton, List.not_mem_nil, or_false] at hk
      omega
    have hc : [32, 9, 10, 11, 12, 13].contains c.toNat = false := by
      rw [List.contains_eq_any_beq, List.any_eq_false]
      intro k hk
      simpa using fun e => hl k hk e
    rw [hc]
    simp [h32]
    intro h9
    by_contra h13
    exact h913 ⟨h9, by omega⟩

theorem add_marks_loop_name (marks : Nat → Option F32) (l : List Nat) (s t : Student)
    (h : add_marks_loop marks l s = some t) : t.name = s.name := by
  induction l generalizing s with
  | nil => simp [add_marks_loop] at h; rw [← h]
  | cons i rest ih =>
    simp only [add_marks_loop] at h
    cases hm : marks i with
    | none => simp [hm] at h
    | some m => simp only [hm] at h; rw [ih _ h, setMark_name]

/-- The record a successful add stores carries the typed name, or "Unnamed
Student" for a blank line, passed through `to_titlecase`. -/
theorem add_name (n : Nat) (s0 : Student) (inp : AddInput) (f : DataFile)
    (hadd : (addStudent_feature n s0 inp f).1 = AddOutcome.added) :
    ∃ t, (addStudent_feature n s0 inp f).2 = some (records f ++ [t])
      ∧ t.name = to_titlecase
          (if inp.name = [] then "Unnamed Student".toList else inp.name) := by
  unfold addStudent_feature at hadd ⊢
  cases hroll : inp.roll with
  | none => rw [hroll] at hadd; simp at hadd
  | some r =>
    rw [hroll] at hadd
    simp only at hadd ⊢
    by_cases hex : roll_exists f r = true
    · simp [hex] at hadd
    · simp only [hex, Bool.false_eq_true, if_false] at hadd ⊢
      cases hm : add_marks_loop inp.marks (List.range n) _ with
      | none => rw [hm] at hadd; simp at hadd
      | some s2 =>
        refine ⟨recalc_student n s2, rfl, ?_⟩
        show s2.name = _
        rw [add_marks_loop_name _ _ _ _ hm]
        cases hname : inp.name with
        | nil => simp
        | cons c cs => simp

/-- C13: `to_titlecase` returns a string of the same length in which every
whitespace character is the original one, every other character that is first
in the string or comes right after a whitespace character is the uppercase of
the original, and every remaining character is the lowercase of the original;
"ann lee", "aNN lEE" and "ANN  LEE" become "Ann Lee", "Ann Lee" and
"Ann  Lee". The name a successful add stores is the typed name (or "Unnamed
Student") passed through `to_titlecase`, the name an update stores for a
non-blank entry is that entry passed through `to_titlecase`, and adding
"ann lee" to the empty store stores the name "Ann Lee". -/
theorem to_titlecase_spec (s : List Char) :
    (to_titlecase s).length = s.length
    ∧ (∀ (i : Nat) (c : Char), s[i]? = some c → is_blank c = true →
        (to_titlecase s)[i]? = some c)
    ∧ (∀ (i : Nat) (c : Char), s[i]? = some c → is_blank c = false →
        (i = 0 ∨ ∃ p, s[i - 1]? = some p ∧ is_blank p = true) →
        (to_titlecase s)[i]? = some (upper_of c))
    ∧ (∀ (i : Nat) (c : Char), s[i]? = some c → is_blank c = false →
        ¬ (i = 0 ∨ ∃ p, s[i - 1]? = some p ∧ is_blank p = true) →
        (to_titlecase s)[i]? = some (lower_of c))
    ∧ to_titlecase "ann lee".toList = "Ann Lee".toList
    ∧ to_titlecase "aNN lEE".toList = "Ann Lee".toList
    ∧ to_titlecase "ANN  LEE".toList = "Ann  Lee".toList
    ∧ (∀ (n : Nat) (s0 : Student) (inp : AddInput) (f : DataFile),
        (addStudent_feature n s0 inp f).1 = AddOutcome.added →
        ∃ t, (addStudent_feature n s0 inp f).2 = some (records f ++ [t])
          ∧ t.name = to_titlecase
              (if inp.name = [] then "Unnamed Student".toList else inp.name))
    ∧ (∀ (n : Nat) (mu : Mutation) (t : Student), mu.newname ≠ [] →
        (update_record n mu t).name = to_titlecase mu.newname)
    ∧ (records (addStudent_feature 3 ⟨0, [], marksOf [], 0, 0, 'F'⟩
          ⟨some 10, "ann lee".toList, fun i => [some 90, some 80, some 70].getD i none⟩
          none).2).map (fun t => t.name) = ["Ann Lee".toList] := by
  have hcap : ∀ i : Nat, cap_before s true i = true ↔
      (i = 0 ∨ ∃ p, s[i - 1]? = some p ∧ is_blank p = true) := by
    intro i
    cases i with
    | zero => simp [cap_before]
    | succ j =>
      simp only [cap_before, Nat.add_sub_cancel, Nat.succ_ne_zero, false_or]
      cases s[j]? with
      | none => simp
      | some p => simp [isspace_eq_is_blank]
  refine ⟨to_titlecase_loop_length s true, ?_, ?_, ?_, by decide, by decide, by decide,
    fun n s0 inp f h => add_name n s0 inp f h, ?_, by decide⟩
  · intro i c h hsp
    rw [← isspace_eq_is_blank] at hsp
    rw [to_titlecase, to_titlecase_loop_get s true i c h, if_pos hsp]
  · intro i c h hsp hstart
    rw [← isspace_eq_is_blank] at hsp
    rw [to_titlecase, to_titlecase_loop_get s true i c h, if_neg (by simp [hsp]),
      if_pos ((hcap i).2 hstart), toupper_eq_upper_of]
  · intro i c h hsp hstart
    rw [← isspace_eq_is_blank] at hsp
    rw [to_titlecase, to_titlecase_loop_get s true i c h, if_neg (by simp [hsp]),
      if_neg (fun hc => hstart ((hcap i).1 hc)), tolower_eq_lower_of]
  · intro n mu t hne
    rw [update_record_name, if_neg hne]

/-- Witness for C13: the character at index 1 of "aNN lEE" is not first and
follows no whitespace, and becomes its lowercase. -/
theorem to_titlecase_spec_witness :
    (to_titlecase "aNN lEE".toList)[1]? = some (lower_of (Char.ofNat 78)) :=
  (to_titlecase_spec "aNN lEE".toList).2.2.2.1 1 (Char.ofNat 78) (by decide) (by decide)
    (by decide)

/-! ### Analytics -/

theorem flt_false_of_fle (a b : F32) (h : fle a b = true) : flt b a = false := by
  cases hba : flt b a with
  | false => rfl
  | true =>
    have := flt_not_fge b a hba
    rw [fge, h] at this
    exact Bool.noConfusion this

theorem flt_of_not_fle (a b : F32) (ha : a ≠ F32.nan) (hb : b ≠ F32.nan)
    (h : fle a b = false) : flt b a = true := by
  cases hba : flt b a with
  | true => rfl
  | false =>
    have := fle_of_not_flt b a hb ha hba
    rw [h] at this
    exact Bool.noConfusion this

theorem flt_of_flt_of_fle (a b c : F32) (hab : flt a b = true) (hbc : fle b c = true) :
    flt a c = true := by
  cases a <;> cases b <;> cases c <;> simp_all [flt, fle]
  omega

theorem flt_of_fle_of_flt (a b c : F32) (hab : fle a b = true) (hbc : flt b c = true) :
    flt a c = true := by
  cases a <;> cases b <;> cases c <;> simp_all [flt, fle]
  omega

theorem fle_refl (a : F32) (ha : a ≠ F32.nan) : fle a a = true := by
  cases a <;> simp_all [fle]

theorem analytics_body_highest (s : Student) (i : Nat) (e : Extremes) :
    (flt e.highest s.percentage = true →
      (analytics_body s i e).highest = s.percentage
        ∧ (analytics_body s i e).highest_idx = (i : Int))
    ∧ (flt e.highest s.percentage = false →
      (analytics_body s i e).highest = e.highest
        ∧ (analytics_body s i e).highest_idx = e.highest_idx) := by
  unfold analytics_body fgt
  constructor
  · intro h
    simp only [h, if_true]
    split <;> exact ⟨rfl, rfl⟩
  · intro h
    simp only [h, Bool.false_eq_true, if_false]
    split <;> exact ⟨rfl, rfl⟩

theorem analytics_body_lowest (s : Student) (i : Nat) (e : Extremes) :
    (flt s.percentage e.lowest = true →
      (analytics_body s i e).lowest = s.percentage
        ∧ (analytics_body s i e).lowest_idx = (i : Int))
    ∧ (flt s.percentage e.lowest = false →
      (analytics_body s i e).lowest = e.lowest
        ∧ (analytics_body s i e).lowest_idx = e.lowest_idx) := by
  unfold analytics_body
  constructor
  · intro h
    cases hh : fgt s.percentage e.highest <;> simp [h]
  · intro h
    cases hh : fgt s.percentage e.highest <;> simp [h]

theorem analytics_loop_highest_keep (rest : List Student) (i : Nat) (e : Extremes)
    (h : ∀ s ∈ rest, fle s.percentage e.highest = true) :
    (analytics_loop rest i e).highest = e.highest
    ∧ (analytics_loop rest i e).highest_idx = e.highest_idx := by
  induction rest generalizing i e with
  | nil => exact ⟨rfl, rfl⟩
  | cons s t ih =>
    have hs := ((analytics_body_highest s i e).2
      (flt_false_of_fle _ _ (h s (List.mem_cons_self _ _))))
    have ht := ih (i + 1) (analytics_body s i e)
      (fun x hx => by rw [hs.1]; exact h x (List.mem_cons_of_mem _ hx))
    simp only [analytics_loop]
    rw [ht.1, ht.2, hs.1, hs.2]
    exact ⟨rfl, rfl⟩

theorem analytics_loop_lowest_keep (rest : List Student) (i : Nat) (e : Extremes)
    (h : ∀ s ∈ rest, fle e.lowest s.percentage = true) :
    (analytics_loop rest i e).lowest = e.lowest
    ∧ (analytics_loop rest i e).lowest_idx = e.lowest_idx := by
  induction rest generalizing i e with
  | nil => exact ⟨rfl, rfl⟩
  | cons s t ih =>
    have hs := ((analytics_body_lowest s i e).2
      (flt_false_of_fle _ _ (h s (List.mem_cons_self _ _))))
    have ht := ih (i + 1) (analytics_body s i e)
      (fun x hx => by rw [hs.1]; exact h x (List.mem_cons_of_mem _ hx))
    simp only [analytics_loop]
    rw [ht.1, ht.2, hs.1, hs.2]
    exact ⟨rfl, rfl⟩

theorem analytics_loop_highest_found (rest : List Student) (i : Nat) (e : Extremes)
    (nn : ∀ s ∈ rest, s.percentage ≠ F32.nan) (ne : e.highest ≠ F32.nan)
    (h : ∃ s ∈ rest, flt e.highest s.percentage = true) :
    ∃ (j : Nat) (x : Student), rest[j]? = some x
      ∧ (analytics_loop rest i e).highest_idx = ((i + j : Nat) : Int)
      ∧ x.percentage = (analytics_loop rest i e).highest
      ∧ (∀ s ∈ rest, fle s.percentage (analytics_loop rest i e).highest = true)
      ∧ (∀ (k : Nat) (y : Student), k < j → rest[k]? = some y →
          flt y.percentage (analytics_loop rest i e).highest = true) := by
  induction rest generalizing i e with
  | nil => rcases h with ⟨s, hs, _⟩; simp at hs
  | cons s t ih =>
    simp only [analytics_loop]
    have ns : s.percentage ≠ F32.nan := nn s (List.mem_cons_self _ _)
    have nt : ∀ x ∈ t, x.percentage ≠ F32.nan := fun x hx => nn x (List.mem_cons_of_mem _ hx)
    have tail : ∀ (hb1 : (analytics_body s i e).highest ≠ F32.nan)
        (hex : ∃ x ∈ t, flt (analytics_body s i e).highest x.percentage = true)
        (hs : ∀ w, flt (analytics_body s i e).highest w = true → flt s.percentage w = true),
        ∃ (j : Nat) (x : Student), (s :: t)[j]? = some x
          ∧ (analytics_loop t (i + 1) (analytics_body s i e)).highest_idx = ((i + j : Nat) : Int)
          ∧ x.percentage = (analytics_loop t (i + 1) (analytics_body s i e)).highest
          ∧ (∀ z ∈ s :: t,
              fle z.percentage (analytics_loop t (i + 1) (analytics_body s i e)).highest = true)
          ∧ (∀ (k : Nat) (y : Student), k < j → (s :: t)[k]? = some y →
              flt y.percentage (analytics_loop t (i + 1) (analytics_body s i e)).highest
                = true) := by
      intro hb1 hex hs
      rcases ih (i + 1) (analytics_body s i e) nt hb1 hex with ⟨j, x, hj, hidx, hval, hmax, hbefore⟩
      rcases hex with ⟨w, hw, hwlt⟩
      have hsmall : flt s.percentage (analytics_loop t (i + 1) (analytics_body s i e)).highest
          = true := flt_of_flt_of_fle _ _ _ (hs _ hwlt) (hmax w hw)
      refine ⟨j + 1, x, by simpa using hj, ?_, hval, ?_, ?_⟩
      · rw [hidx]; congr 1; omega
      · intro z hz
        rcases List.mem_cons.1 hz with e1 | e1
        · rw [e1]; exact fle_of_flt _ _ hsmall
        · exact hmax z e1
      · intro k y hk hy
        cases k with
        | zero =>
          simp only [List.getElem?_cons_zero, Option.some.injEq] at hy
          rw [← hy]; exact hsmall
        | succ k =>
          simp only [List.getElem?_cons_succ] at hy
          exact hbefore k y (by omega) hy
    cases hgt : flt e.highest s.percentage with
    | true =>
      have hb := (analytics_body_highest s i e).1 hgt
      by_cases hall : ∀ x ∈ t, fle x.percentage s.percentage = true
      · have hk := analytics_loop_highest_keep t (i + 1) (analytics_body s i e)
          (fun x hx => by rw [hb.1]; exact hall x hx)
        refine ⟨0, s, by simp, ?_, ?_, ?_, ?_⟩
        · rw [hk.2, hb.2]; rfl
        · rw [hk.1, hb.1]
        · intro x hx
          rw [hk.1, hb.1]
          rcases List.mem_cons.1 hx with e1 | e1
          · rw [e1]; exact fle_refl _ ns
          · exact hall x e1
        · intro k y hk0 _; exact absurd hk0 (Nat.not_lt_zero k)
      · have hex : ∃ x ∈ t, flt (analytics_body s i e).highest x.percentage = true := by
          rw [hb.1]
          by_contra hno
          apply hall
          intro x hx
          cases hfle : fle x.percentage s.percentage with
          | true => rfl
          | false => exact absurd ⟨x, hx, flt_of_not_fle _ _ (nt x hx) ns hfle⟩ hno
        exact tail (by rw [hb.1]; exact ns) hex (fun w hw => by rw [hb.1] at hw; exact hw)
    | false =>
      have hb := (analytics_body_highest s i e).2 hgt
      have hex : ∃ x ∈ t, flt (analytics_body s i e).highest x.percentage = true := by
        rw [hb.1]
        rcases h with ⟨w, hw, hwlt⟩
        rcases List.mem_cons.1 hw with e1 | e1
        · rw [e1, hgt] at hwlt; exact Bool.noConfusion hwlt
        · exact ⟨w, e1, hwlt⟩
      exact tail (by rw [hb.1]; exact ne) hex (fun w hw => by
        rw [hb.1] at hw
        exact flt_of_fle_of_flt _ _ _ (fle_of_not_flt _ _ ne ns hgt) hw)

theorem analytics_loop_lowest_found (rest : List Student) (i : Nat) (e : Extremes)
    (nn : ∀ s ∈ rest, s.percentage ≠ F32.nan) (ne : e.lowest ≠ F32.nan)
    (h : ∃ s ∈ rest, flt s.percentage e.lowest = true) :
    ∃ (j : Nat) (x : Student), rest[j]? = some x
      ∧ (analytics_loop rest i e).lowest_idx = ((i + j : Nat) : Int)
      ∧ x.percentage = (analytics_loop rest i e).lowest
      ∧ (∀ s ∈ rest, fle (analytics_loop rest i e).lowest s.percentage = true)
      ∧ (∀ (k : Nat) (y : Student), k < j → rest[k]? = some y →
          flt (analytics_loop rest i e).lowest y.percentage = true) := by
  induction rest generalizing i e with
  | nil => rcases h with ⟨s, hs, _⟩; simp at hs
  | cons s t ih =>
    simp only [analytics_loop]
    have ns : s.percentage ≠ F32.nan := nn s (List.mem_cons_self _ _)
    have nt : ∀ x ∈ t, x.percentage ≠ F32.nan := fun x hx => nn x (List.mem_cons_of_mem _ hx)
    have tail : ∀ (hb1 : (analytics_body s i e).lowest ≠ F32.nan)
        (hex : ∃ x ∈ t, flt x.percentage (analytics_body s i e).lowest = true)
        (hs : ∀ w, flt w (analytics_body s i e).lowest = true → flt w s.percentage = true),
        ∃ (j : Nat) (x : Student), (s :: t)[j]? = some x
          ∧ (analytics_loop t (i + 1) (analytics_body s i e)).lowest_idx = ((i + j : Nat) : Int)
          ∧ x.percentage = (analytics_loop t (i + 1) (analytics_body s i e)).lowest
          ∧ (∀ z ∈ s :: t,
              fle (analytics_loop t (i + 1) (analytics_body s i e)).lowest z.percentage = true)
          ∧ (∀ (k : Nat) (y : Student), k < j → (s :: t)[k]? = some y →
              flt (analytics_loop t (i + 1) (analytics_body s i e)).lowest y.percentage
                = true) := by
      intro hb1 hex hs
      rcases ih (i + 1) (analytics_body s i e) nt hb1 hex with ⟨j, x, hj, hidx, hval, hmin, hbefore⟩
      rcases hex with ⟨w, hw, hwlt⟩
      have hbig : flt (analytics_loop t (i + 1) (analytics_body s i e)).lowest s.percentage
          = true := flt_of_fle_of_flt _ _ _ (hmin w hw) (hs _ hwlt)
      refine ⟨j + 1, x, by simpa using hj, ?_, hval, ?_, ?_⟩
      · rw [hidx]; congr 1; omega
      · intro z hz
        rcases List.mem_cons.1 hz with e1 | e1
        · rw [e1]; exact fle_of_flt _ _ hbig
        · exact hmin z e1
      · intro k y hk hy
        cases k with
        | zero =>
          simp only [List.getElem?_cons_zero, Option.some.injEq] at hy
          rw [← hy]; exact hbig
        | succ k =>
          simp only [List.getElem?_cons_succ] at hy
          exact hbefore k y (by omega) hy
    cases hlt : flt s.percentage e.lowest with
    | true =>
      have hb := (analytics_body_lowest s i e).1 hlt
      by_cases hall : ∀ x ∈ t, fle s.percentage x.percentage = true
      · have hk := analytics_loop_lowest_keep t (i + 1) (analytics_body s i e)
          (fun x hx => by rw [hb.1]; exact hall x hx)
        refine ⟨0, s, by simp, ?_, ?_, ?_, ?_⟩
        · rw [hk.2, hb.2]; rfl
        · rw [hk.1, hb.1]
        · intro x hx
          rw [hk.1, hb.1]
          rcases List.mem_cons.1 hx with e1 | e1
          · rw [e1]; exact fle_refl _ ns
          · exact hall x e1
        · intro k y hk0 _; exact absurd hk0 (Nat.not_lt_zero k)
      · have hex : ∃ x ∈ t, flt x.percentage (analytics_body s i e).lowest = true := by
          rw [hb.1]
          by_contra hno
          apply hall
          intro x hx
          cases hfle : fle s.percentage x.percentage with
          | true => rfl
          | false => exact absurd ⟨x, hx, flt_of_not_fle _ _ ns (nt x hx) hfle⟩ hno
        exact tail (by rw [hb.1]; exact ns) hex (fun w hw => by rw [hb.1] at hw; exact hw)
    | false =>
      have hb := (analytics_body_lowest s i e).2 hlt
      have hex : ∃ x ∈ t, flt x.percentage (analytics_body s i e).lowest = true := by
        rw [hb.1]
        rcases h with ⟨w, hw, hwlt⟩
        rcases List.mem_cons.1 hw with e1 | e1
        · rw [e1, hlt] at hwlt; exact Bool.noConfusion hwlt
        · exact ⟨w, e1, hwlt⟩
      exact tail (by rw [hb.1]; exact ne) hex (fun w hw => by
        rw [hb.1] at hw
        exact flt_of_flt_of_fle _ _ _ hw (fle_of_not_flt _ _ ns ne hlt))

/-- On a snapshot without NaN percentages in which some percentage is above
-1, the scan of `analytics_feature` ends with `highest_idx` at the smallest
index whose percentage is the maximum of the snapshot; on a snapshot without
NaN percentages in which some percentage is below `1e9`, it ends with
`lowest_idx` at the smallest index whose percentage is the minimum. -/
theorem analytics_feature_in_range (arr : List Student)
    (nn : ∀ s ∈ arr, s.percentage ≠ F32.nan) :
    ((∃ s ∈ arr, flt (-1) s.percentage = true) →
      ∃ (j : Nat) (x : Student), arr[j]? = some x
        ∧ (analytics_feature arr).highest_idx = (j : Int)
        ∧ (∀ s ∈ arr, fle s.percentage x.percentage = true)
        ∧ (∀ (k : Nat) (y : Student), k < j → arr[k]? = some y →
            flt y.percentage x.percentage = true))
    ∧ ((∃ s ∈ arr, flt s.percentage 1000000000 = true) →
      ∃ (j : Nat) (x : Student), arr[j]? = some x
        ∧ (analytics_feature arr).lowest_idx = (j : Int)
        ∧ (∀ s ∈ arr, fle x.percentage s.percentage = true)
        ∧ (∀ (k : Nat) (y : Student), k < j → arr[k]? = some y →
            flt x.percentage y.percentage = true)) := by
  constructor
  · intro h
    rcases analytics_loop_highest_found arr 0 analytics_init nn (by decide) h with
      ⟨j, x, hj, hidx, hval, hmax, hb⟩
    refine ⟨j, x, hj, ?_, ?_, ?_⟩
    · rw [analytics_feature, hidx, Nat.zero_add]
    · rw [hval]; exact hmax
    · rw [hval]; exact hb
  · intro h
    rcases analytics_loop_lowest_found arr 0 analytics_init nn (by decide) h with
      ⟨j, x, hj, hidx, hval, hmin, hb⟩
    refine ⟨j, x, hj, ?_, ?_, ?_⟩
    · rw [analytics_feature, hidx, Nat.zero_add]
    · rw [hval]; exact hmin
    · rw [hval]; exact hb

/-- C14 (failing input): on the one-record snapshot whose percentage is -5
(marks -5, -5, -5 under three subjects), the maximum percentage is attained at
index 0 but the scan ends with `highest_idx = -1`; on the one-record snapshot
whose percentage is 1000000000, the minimum is attained at index 0 but the
scan ends with `lowest_idx = -1`. -/
theorem analytics_feature_sentinel :
    (analytics_feature [⟨1, "Ann".toList, marksOf [-5, -5, -5], -15, -5, 'F'⟩]).highest_idx = -1
    ∧ (analytics_feature [⟨1, "Ann".toList, marksOf [-5, -5, -5], -15, -5, 'F'⟩]).lowest_idx = 0
    ∧ (analytics_feature
        [⟨2, "Bob".toList, marksOf [1000000000, 1000000000, 1000000000], 3000000000,
          1000000000, 'A'⟩]).lowest_idx = -1
    ∧ (analytics_feature
        [⟨2, "Bob".toList, marksOf [1000000000, 1000000000, 1000000000], 3000000000,
          1000000000, 'A'⟩]).highest_idx = 0 := by
  decide

/-! ### Pagination -/

theorem range_filterMap_getElem (arr : List Student) (m a : Nat) :
    (List.range' a m).filterMap (fun i => arr[i]?) = (arr.drop a).take m := by
  induction m generalizing a with
  | zero => simp
  | succ m ih =>
    rw [List.range'_succ, List.filterMap_cons, ih (a + 1)]
    by_cases ha : a < arr.length
    · rw [List.getElem?_eq_getElem ha, List.drop_eq_getElem_cons ha, List.take_succ_cons]
    · have hlen : arr.length ≤ a := Nat.le_of_not_lt ha
      rw [List.getElem?_eq_none hlen, List.drop_eq_nil_of_le hlen,
        List.drop_eq_nil_of_le (Nat.le_succ_of_le hlen)]
      simp

theorem page_rows_eq (arr : List Student) (k : Nat) :
    page_rows arr arr.length k = (arr.drop (5 * k)).take 5 := by
  unfold page_rows
  simp only [RECORDS_PER_PAGE]
  rw [range_filterMap_getElem, Nat.mul_comm k 5]
  by_cases h : 5 * k + 5 > arr.length
  · rw [if_pos h]
    rw [List.take_of_length_le (by rw [List.length_drop]),
      List.take_of_length_le (by rw [List.length_drop]; omega)]
  · rw [if_neg h]
    congr 1
    omega

theorem page_rows_length (arr : List Student) (k : Nat) :
    (page_rows arr arr.length k).length = min (5 * k + 5) arr.length - 5 * k := by
  rw [page_rows_eq, List.length_take, List.length_drop]
  omega

theorem pages_join (arr : List Student) (m : Nat) :
    ((List.range m).map (page_rows arr arr.length)).flatten = arr.take (5 * m) := by
  induction m with
  | zero => simp
  | succ m ih =>
    rw [List.range_succ, List.map_append, List.flatten_append, ih, List.map_singleton,
      List.flatten_singleton, page_rows_eq, Nat.mul_succ, List.take_add]

theorem page_count_bounds (count : Nat) :
    count ≤ 5 * page_count count ∧ (0 < count → 5 * (page_count count - 1) < count)
    ∧ (0 < count → 0 < page_count count) := by
  unfold page_count
  simp only [RECORDS_PER_PAGE]
  omega

theorem key_step_bound (pages current c : Nat) (ch : Char) (h : current < pages)
    (hk : key_step pages current ch = some c) : c < pages := by
  unfold key_step at hk
  split at hk
  · have := Option.some.inj hk
    split at this <;> omega
  · split at hk
    · have := Option.some.inj hk
      split at this <;> omega
    · exact absurd hk (by simp)

theorem paginate_loop_inv (arr : List Student) (count pages : Nat) (keys : List Char)
    (current : Nat) (h : current < pages) :
    ∀ e ∈ paginate_loop arr count pages keys current,
      e.1 < pages ∧ e.2 = page_rows arr count e.1 := by
  induction keys generalizing current with
  | nil =>
    intro e he
    simp only [paginate_loop, List.mem_singleton] at he
    rw [he]; exact ⟨h, rfl⟩
  | cons ch rest ih =>
    intro e he
    simp only [paginate_loop, List.mem_cons] at he
    rcases he with he | he
    · rw [he]; exact ⟨h, rfl⟩
    · cases hk : key_step pages current ch with
      | none => rw [hk] at he; simp at he
      | some c =>
        rw [hk] at he
        exact ih c (key_step_bound pages current c ch h hk) e he

theorem paginate_loop_reach (arr : List Student) (count pages k c : Nat) (h : c + k < pages) :
    (c + k, page_rows arr count (c + k))
      ∈ paginate_loop arr count pages (List.replicate k 'n') c := by
  induction k generalizing c with
  | zero => simp [paginate_loop]
  | succ k ih =>
    have hstep : key_step pages c 'n' = some (c + 1) := by
      have : c + 1 < pages := by omega
      simp [key_step, this]
    rw [List.replicate_succ]
    simp only [paginate_loop, hstep, List.mem_cons]
    right
    have := ih (c + 1) (by omega)
    rw [show c + 1 + k = c + (k + 1) by omega] at this
    exact this

/-- C15: for a sequence `arr` of `count` records and page size 5,
`paginate_and_display` works with `ceil(count / 5)` pages; page `k` below that
number shows the records at indices `5k` up to `min(5k + 5, count) - 1` in
order, is not empty, holds at most 5 records, holds exactly 5 unless it is the
last, and is displayed after `k` presses of `n`; the pages in order, put end
to end, are the sequence; whatever keys are pressed, every page displayed has
its index `current` below the number of pages and shows the rows of that
index; and for `count = 0` no page is displayed. -/
theorem paginate_and_display_spec (arr : List Student) :
    page_count arr.length = ⌈(arr.length : ℚ) / 5⌉₊
    ∧ (∀ k : Nat, k < page_count arr.length →
        (page_rows arr arr.length k).length = min (5 * k + 5) arr.length - 5 * k
        ∧ (∀ j : Nat, j < min (5 * k + 5) arr.length - 5 * k →
            (page_rows arr arr.length k)[j]? = arr[5 * k + j]?)
        ∧ page_rows arr arr.length k ≠ []
        ∧ (page_rows arr arr.length k).length ≤ 5
        ∧ (k + 1 < page_count arr.length → (page_rows arr arr.length k).length = 5)
        ∧ (k, page_rows arr arr.length k)
            ∈ paginate_and_display arr arr.length (List.replicate k 'n'))
    ∧ ((List.range (page_count arr.length)).map (page_rows arr arr.length)).flatten = arr
    ∧ (∀ keys : List Char, ∀ e ∈ paginate_and_display arr arr.length keys,
        e.1 < page_count arr.length ∧ e.2 = page_rows arr arr.length e.1)
    ∧ (arr.length = 0 → ∀ keys : List Char, paginate_and_display arr arr.length keys = []) := by
  have hb := page_count_bounds arr.length
  refine ⟨?_, ?_, ?_, ?_, ?_⟩
  · by_cases h0 : arr.length = 0
    · simp [h0, page_count, RECORDS_PER_PAGE]
    · have hpos : 0 < arr.length := Nat.pos_of_ne_zero h0
      have hp := hb.2.2 hpos
      symm
      rw [Nat.ceil_eq_iff (by omega)]
      constructor
      · rw [lt_div_iff₀ (by norm_num)]
        have := hb.2.1 hpos
        have h2 : (page_count arr.length - 1) * 5 < arr.length := by omega
        exact_mod_cast h2
      · rw [div_le_iff₀ (by norm_num)]
        have h2 : arr.length ≤ page_count arr.length * 5 := by omega
        exact_mod_cast h2
  · intro k hk
    have hlen := page_rows_length arr k
    have hk5 : 5 * k < arr.length := by
      by_cases h0 : arr.length = 0
      · simp [h0, page_count, RECORDS_PER_PAGE] at hk
      · have := hb.2.1 (Nat.pos_of_ne_zero h0)
        omega
    refine ⟨hlen, ?_, ?_, ?_, ?_, ?_⟩
    · intro j hj
      rw [page_rows_eq, List.getElem?_take_of_lt (by omega), List.getElem?_drop]
    · intro hnil
      rw [hnil] at hlen
      simp only [List.length_nil] at hlen
      omega
    · omega
    · intro hk1
      have := hb.1
      have hle : 5 * (k + 1) ≤ 5 * (page_count arr.length - 1) := Nat.mul_le_mul_left 5 (by omega)
      have := hb.2.1 (by omega)
      omega
    · have hne : arr.length ≠ 0 := by omega
      have := paginate_loop_reach arr arr.length (page_count arr.length) k 0 (by omega)
      simpa [paginate_and_display, hne] using this
  · rw [pages_join arr (page_count arr.length), List.take_of_length_le hb.1]
  · intro keys e he
    by_cases h0 : arr.length = 0
    · simp [paginate_and_display, h0] at he
    · simp only [paginate_and_display, h0, if_false] at he
      exact paginate_loop_inv arr arr.length _ keys 0 (hb.2.2 (Nat.pos_of_ne_zero h0)) e he
  · intro h0 keys
    simp [paginate_and_display, h0]

/-- Witness for C15: of six records, page 1 is the last page and shows one
row. -/
theorem paginate_and_display_spec_witness :
    (page_rows ([1, 2, 3, 4, 5, 6].map (fun r => (⟨r, [], marksOf [], 0, 0, 'F'⟩ : Student)))
        ([1, 2, 3, 4, 5, 6].map (fun r => (⟨r, [], marksOf [], 0, 0, 'F'⟩ : Student))).length
        1).length
      = min (5 * 1 + 5)
          ([1, 2, 3, 4, 5, 6].map (fun r => (⟨r, [], marksOf [], 0, 0, 'F'⟩ : Student))).length
        - 5 * 1 :=
  ((paginate_and_display_spec
      ([1, 2, 3, 4, 5, 6].map (fun r => (⟨r, [], marksOf [], 0, 0, 'F'⟩ : Student)))).2.1
    1 (by decide)).1

end G1
